import Mathlib

/-!
# Verification of the rust-redis core

A shallow embedding, in Lean 4, of the parts of the `rust-redis` repository
(an RESP-compatible in-memory key/value server) that the specified claims
are about:

* the RESP codec (`src/resp/encoder.rs`, `src/resp/parser.rs`),
* AOF startup replay (`src/aof.rs`, `src/main.rs`),
* the command layer (`src/command.rs`),
* the keyspace engine (`src/db.rs`),
* the probabilistic skip list backing sorted sets (`src/skiplist.rs`).

Modelling conventions:

* Rust byte strings (`Vec<u8>`, `&[u8]`) are `List Nat`; Rust `String`s are
  the `List Nat` of their UTF-8 bytes (a Rust `String` is always valid UTF-8,
  which appears as a well-formedness hypothesis where it matters).
* Machine integers are `Nat`/`Int` with explicit bounds or wraparound
  (`% 2 ^ 64`) exactly where the Rust types impose them; the target is a
  64-bit platform, so `usize`/`isize` are 64-bit.
* Unbounded Rust loops over linked/indexed structures are modelled with an
  explicit recursion budget ("fuel") chosen large enough that, on the states
  reachable in the Rust program, it is never exhausted; every such place is
  commented.
* `f64` values are modelled by the inductive `F64`; NaN and the infinities
  are explicit constructors, finite values carry the exact rational denoted
  by their decimal source text (binary64 rounding is not modelled — no claim
  below depends on the magnitude of a finite score, only on NaN-ness and on
  comparisons the claims never exercise).
* `tokio` synchronisation (locks, `Notify`) and `Instant` are erased: each
  command runs atomically on a `DbState`, and the current time is an explicit
  `Nat` parameter `now`.
-/

set_option maxRecDepth 10000

namespace RustRedis

/-! ## Bytes and decimal text -/

/-- UTF-8 bytes of an ASCII string literal (only used on ASCII text, where
code points and bytes coincide). -/
def ascii (s : String) : List Nat := s.toList.map Char.toNat

/-- Is `b` an ASCII decimal digit? -/
def isDigitB (b : Nat) : Bool := 48 ≤ b && b ≤ 57

/-- Little-endian decimal digits of `n` as ASCII bytes; `fuel ≥ n` suffices. -/
def natToDecAux : Nat → Nat → List Nat
  | 0, _ => []
  | fuel + 1, n => if n = 0 then [] else (n % 10 + 48) :: natToDecAux fuel (n / 10)

/-- ASCII decimal representation of a `Nat`, most significant digit first —
the bytes Rust's `usize::to_string` / `u64` formatting produces. -/
def natToDec (n : Nat) : List Nat :=
  if n = 0 then [48] else (natToDecAux n n).reverse

/-- ASCII decimal representation of an `Int` — the bytes `i64::to_string`
produces (`-` followed by the magnitude when negative). -/
def intToDec (i : Int) : List Nat :=
  if i < 0 then 45 :: natToDec (-i).toNat else natToDec i.toNat

/-- Value of a nonempty all-digit byte string, most significant digit first;
`none` if empty or any byte is not an ASCII digit. -/
def digitsVal? (l : List Nat) : Option Nat :=
  if l ≠ [] ∧ l.all isDigitB then some (l.foldl (fun a d => a * 10 + (d - 48)) 0) else none

/-- Sign handling of Rust's integer `FromStr`: an optional leading `+` or
`-`; the remainder must be digits. -/
def stripSign : List Nat → Bool × List Nat
  | [] => (false, [])
  | b :: r => if b = 43 then (false, r) else if b = 45 then (true, r) else (false, b :: r)

/-- Rust `str::parse::<i64>`: optional `+`/`-` sign, one or more ASCII
digits, value within `i64` range. Rust first checks the bytes are UTF-8
(`str::from_utf8`); any byte that fails that check also fails the digit
check here, and both failures are reported the same way by the callers, so
the two checks are merged. -/
def parseI64 (l : List Nat) : Option Int :=
  match digitsVal? (stripSign l).2 with
  | none => none
  | some n =>
    let v : Int := if (stripSign l).1 then -(n : Int) else (n : Int)
    if -(2 ^ 63 : Int) ≤ v ∧ v < 2 ^ 63 then some v else none

/-- Rust `str::parse::<usize>`: optional `+` sign (no `-`), digits, value
below `2 ^ 64` (64-bit platform). -/
def parseUsize (l : List Nat) : Option Nat :=
  if (stripSign l).1 then none
  else match digitsVal? (stripSign l).2 with
  | none => none
  | some n => if n < 2 ^ 64 then some n else none

theorem natToDecAux_eq_digits : ∀ fuel n, n ≤ fuel →
    natToDecAux fuel n = (Nat.digits 10 n).map (· + 48) := by
  intro fuel
  induction fuel with
  | zero => intro n hn; interval_cases n; simp [natToDecAux]
  | succ fuel ih =>
    intro n hn
    cases n with
    | zero => simp [natToDecAux]
    | succ m =>
      rw [natToDecAux, if_neg (Nat.succ_ne_zero m),
        Nat.digits_def' (by norm_num : 1 < 10) (Nat.succ_pos m)]
      simp only [List.map_cons]
      congr 1
      exact ih _ (by omega)

theorem natToDec_eq (n : Nat) :
    natToDec n = if n = 0 then [48] else ((Nat.digits 10 n).map (· + 48)).reverse := by
  unfold natToDec
  rw [natToDecAux_eq_digits n n le_rfl]

theorem natToDec_digits (n : Nat) : ∀ b ∈ natToDec n, 48 ≤ b ∧ b ≤ 57 := by
  rw [natToDec_eq]
  split
  · simp
  · intro b hb
    simp only [List.mem_reverse, List.mem_map] at hb
    obtain ⟨d, hd, rfl⟩ := hb
    have := Nat.digits_lt_base (by norm_num) hd
    omega

theorem natToDec_ne_nil (n : Nat) : natToDec n ≠ [] := by
  rw [natToDec_eq]
  split
  · simp
  · simp [Nat.digits_ne_nil_iff_ne_zero, *]

theorem foldl_digits_reverse (l : List Nat) :
    l.reverse.foldl (fun a d => a * 10 + d) 0 = Nat.ofDigits 10 l := by
  induction l with
  | nil => simp [Nat.ofDigits]
  | cons d l ih =>
    rw [List.reverse_cons, List.foldl_append, ih, Nat.ofDigits_cons]
    simp
    ring

theorem digitsVal?_natToDec (n : Nat) : digitsVal? (natToDec n) = some n := by
  have hd := natToDec_digits n
  have hne := natToDec_ne_nil n
  unfold digitsVal?
  rw [if_pos]
  · congr 1
    rw [natToDec_eq]
    split
    · simp_all
    · rw [← List.map_reverse, List.foldl_map]
      simp only [Nat.add_sub_cancel]
      rw [foldl_digits_reverse, Nat.ofDigits_digits]
  · refine ⟨hne, ?_⟩
    rw [List.all_eq_true]
    intro b hb
    have := hd b hb
    simp only [isDigitB, Bool.and_eq_true, decide_eq_true_eq]
    omega

theorem natToDec_head_digit (n : Nat) :
    ∃ b l, natToDec n = b :: l ∧ 48 ≤ b ∧ b ≤ 57 := by
  rcases h : natToDec n with _ | ⟨b, l⟩
  · exact absurd h (natToDec_ne_nil n)
  · have := natToDec_digits n b (by rw [h]; exact List.mem_cons_self b l)
    exact ⟨b, l, rfl, this⟩

theorem stripSign_natToDec (n : Nat) : stripSign (natToDec n) = (false, natToDec n) := by
  obtain ⟨b, l, hb, hb1, hb2⟩ := natToDec_head_digit n
  rw [hb]
  simp only [stripSign]
  rw [if_neg (by omega), if_neg (by omega)]

theorem parseI64_intToDec (i : Int) (h1 : -(2 ^ 63 : Int) ≤ i) (h2 : i < 2 ^ 63) :
    parseI64 (intToDec i) = some i := by
  unfold intToDec
  by_cases hneg : i < 0
  · rw [if_pos hneg]
    have hs : stripSign (45 :: natToDec (-i).toNat) = (true, natToDec (-i).toNat) := rfl
    have hn : ((-i).toNat : Int) = -i := Int.toNat_of_nonneg (by omega)
    simp only [parseI64, hs, digitsVal?_natToDec, hn, if_true]
    rw [if_pos (by constructor <;> omega)]
    simp
  · rw [if_neg hneg]
    have hn : (i.toNat : Int) = i := Int.toNat_of_nonneg (by omega)
    simp only [parseI64, stripSign_natToDec, digitsVal?_natToDec, hn, if_false]
    rw [if_pos (by constructor <;> omega)]
    simp

theorem natToDec_no13 (n : Nat) : 13 ∉ natToDec n := by
  intro h
  have := natToDec_digits n 13 h
  omega

theorem natToDec_no10 (n : Nat) : 10 ∉ natToDec n := by
  intro h
  have := natToDec_digits n 10 h
  omega

theorem intToDec_no13 (i : Int) : 13 ∉ intToDec i := by
  unfold intToDec
  split
  · simp only [List.mem_cons, not_or]
    exact ⟨by omega, natToDec_no13 _⟩
  · exact natToDec_no13 _

/-! ## RESP frames (`src/resp/parser.rs`, enum `Frame`)

`Frame` mirrors the Rust enum: `Simple(String)`, `Error(String)`,
`Integer(i64)`, `Bulk(Vec<u8>)`, `Array(Vec<Frame>)`, `Null`. The `Vec` of
sub-frames is the isomorphic `FrameList` (a mutual inductive, so that the
codec can be defined by kernel-reducible structural recursion). -/

mutual
inductive Frame where
  | simple (s : List Nat)
  | error (s : List Nat)
  | integer (i : Int)
  | bulk (d : List Nat)
  | array (items : FrameList)
  | null

inductive FrameList where
  | nil
  | cons (f : Frame) (fs : FrameList)
end

def FrameList.length : FrameList → Nat
  | .nil => 0
  | .cons _ fs => fs.length + 1

/-! ## RESP encoder (`src/resp/encoder.rs`, `encode_frame`) -/

mutual
/-- `encode_frame` from `src/resp/encoder.rs`: `+s\r\n`, `-s\r\n`,
`:i\r\n`, `$len\r\n<data>\r\n`, `*count\r\n<items>`, and `$-1\r\n` for
`Null`. (`43 = '+'`, `45 = '-'`, `58 = ':'`, `36 = '$'`, `42 = '*'`,
`13 10 = CRLF`.) -/
def encode_frame (f : Frame) : List Nat :=
  match f with
  | .simple s => 43 :: s ++ [13, 10]
  | .error s => 45 :: s ++ [13, 10]
  | .integer i => 58 :: intToDec i ++ [13, 10]
  | .bulk d => 36 :: natToDec d.length ++ [13, 10] ++ d ++ [13, 10]
  | .array items => 42 :: natToDec items.length ++ [13, 10] ++ encode_list items
  | .null => [36, 45, 49, 13, 10]
termination_by structural f

/-- Concatenation of the encodings of a list of frames (the encoder's loop
over `items`). -/
def encode_list (fs : FrameList) : List Nat :=
  match fs with
  | .nil => []
  | .cons f fs => encode_frame f ++ encode_list fs
termination_by structural fs
end

/-! ## UTF-8 validity

`String::from_utf8` in `parse_simple`/`parse_error` validates its input;
this is the standard UTF-8 acceptance automaton (RFC 3629 ranges, surrogates
and overlong encodings excluded). -/

/-- Is `b` a UTF-8 continuation byte (`0x80..=0xBF`)? -/
def isCont (b : Nat) : Bool := 128 ≤ b && b ≤ 191

def utf8Valid : List Nat → Bool
  | [] => true
  | b :: r =>
    if b ≤ 127 then utf8Valid r
    else if 194 ≤ b && b ≤ 223 then
      match r with
      | c1 :: r' => isCont c1 && utf8Valid r'
      | [] => false
    else if b = 224 then
      match r with
      | c1 :: c2 :: r' => (160 ≤ c1 && c1 ≤ 191) && isCont c2 && utf8Valid r'
      | _ => false
    else if (225 ≤ b && b ≤ 236) || b = 238 || b = 239 then
      match r with
      | c1 :: c2 :: r' => isCont c1 && isCont c2 && utf8Valid r'
      | _ => false
    else if b = 237 then
      match r with
      | c1 :: c2 :: r' => (128 ≤ c1 && c1 ≤ 159) && isCont c2 && utf8Valid r'
      | _ => false
    else if b = 240 then
      match r with
      | c1 :: c2 :: c3 :: r' => (144 ≤ c1 && c1 ≤ 191) && isCont c2 && isCont c3 && utf8Valid r'
      | _ => false
    else if 241 ≤ b && b ≤ 243 then
      match r with
      | c1 :: c2 :: c3 :: r' => isCont c1 && isCont c2 && isCont c3 && utf8Valid r'
      | _ => false
    else if b = 244 then
      match r with
      | c1 :: c2 :: c3 :: r' => (128 ≤ c1 && c1 ≤ 143) && isCont c2 && isCont c3 && utf8Valid r'
      | _ => false
    else false

/-! ## Frame well-formedness

The domain of the round-trip claims: `Simple`/`Error` payloads are the bytes
of a Rust `String` (valid UTF-8 — an invariant of the Rust type) with no CR
or LF byte; `Integer` fits `i64` (an invariant of the Rust type); byte
payloads are `u8`s; lengths fit the machine (`Vec` lengths are `usize`s and
the parser reads them back through `isize`, so `< 2 ^ 63`). -/

mutual
def wfFrame (f : Frame) : Bool :=
  match f with
  | .simple s => utf8Valid s && s.all (fun b => b ≠ 13 && b ≠ 10)
  | .error s => utf8Valid s && s.all (fun b => b ≠ 13 && b ≠ 10)
  | .integer i => decide (-(2 ^ 63 : Int) ≤ i) && decide (i < 2 ^ 63)
  | .bulk d => decide (d.length < 2 ^ 63) && d.all (fun b => b < 256)
  | .array items => decide (items.length < 2 ^ 63) && wfList items
  | .null => true
termination_by structural f

def wfList (fs : FrameList) : Bool :=
  match fs with
  | .nil => true
  | .cons f fs => wfFrame f && wfList fs
termination_by structural fs
end

mutual
/-- Nesting depth of a frame: the recursion depth `parse_frame` needs. -/
def depthF (f : Frame) : Nat :=
  match f with
  | .simple _ => 1
  | .error _ => 1
  | .integer _ => 1
  | .bulk _ => 1
  | .array items => depthL items + 1
  | .null => 1
termination_by structural f

def depthL (fs : FrameList) : Nat :=
  match fs with
  | .nil => 0
  | .cons f fs => max (depthF f) (depthL fs)
termination_by structural fs
end

/-! ## RESP parser (`src/resp/parser.rs`) -/

inductive ParseError where
  | incomplete
  | invalid
deriving DecidableEq

/-- `find_crlf`: position of the first `\r\n` window
(`src.windows(2).position(|w| w == b"\r\n")`). -/
def find_crlf : List Nat → Option Nat
  | a :: b :: rest => if a = 13 ∧ b = 10 then some 0 else (find_crlf (b :: rest)).map (· + 1)
  | _ => none

/-- `parse_simple`: everything before the first CRLF, UTF-8 validated.
The `ParseError::Invalid` payload string is not modelled. -/
def parse_simple (src : List Nat) : Except ParseError (Frame × Nat) :=
  match find_crlf src with
  | none => .error .incomplete
  | some pos =>
    let line := (src.take pos).drop 1
    if utf8Valid line then .ok (.simple line, pos + 2) else .error .invalid

/-- `parse_error`: like `parse_simple` but yields an `Error` frame. -/
def parse_error (src : List Nat) : Except ParseError (Frame × Nat) :=
  match find_crlf src with
  | none => .error .incomplete
  | some pos =>
    let line := (src.take pos).drop 1
    if utf8Valid line then .ok (.error line, pos + 2) else .error .invalid

/-- `parse_integer`: the line parsed as `i64` (UTF-8 check and parse merged,
see `parseI64`). -/
def parse_integer (src : List Nat) : Except ParseError (Frame × Nat) :=
  match find_crlf src with
  | none => .error .incomplete
  | some pos =>
    match parseI64 ((src.take pos).drop 1) with
    | none => .error .invalid
    | some v => .ok (.integer v, pos + 2)

/-- `parse_bulk`: length line as `isize`; `-1` is Null; otherwise
`len as usize` (two's-complement wraparound for other negatives, which then
always fails the length test on realizable inputs), payload bytes, and a
mandatory trailing CRLF. The Rust locals are inlined:
`start = pos + 2`, `end = start + len`. -/
def parse_bulk (src : List Nat) : Except ParseError (Frame × Nat) :=
  match find_crlf src with
  | none => .error .incomplete
  | some pos =>
    match parseI64 ((src.take pos).drop 1) with
    | none => .error .invalid
    | some len =>
      if len = -1 then .ok (.null, pos + 2)
      else if src.length < pos + 2 + (len % (2 ^ 64 : Int)).toNat + 2 then .error .incomplete
      else if (src.drop (pos + 2 + (len % (2 ^ 64 : Int)).toNat)).take 2 ≠ [13, 10] then
        .error .invalid
      else .ok (.bulk ((src.drop (pos + 2)).take (len % (2 ^ 64 : Int)).toNat),
        pos + 2 + (len % (2 ^ 64 : Int)).toNat + 2)

/-- The array loop of `parse_frame`: parse `count` frames in sequence,
accumulating consumed bytes, with the given sub-frame parser. (`for _ in
0..count` iterates `max(count, 0)` times; the caller passes `count.toNat`.) -/
def parseItemsWith (p : List Nat → Except ParseError (Frame × Nat)) :
    Nat → List Nat → Except ParseError (FrameList × Nat)
  | 0, _ => .ok (.nil, 0)
  | c + 1, src =>
    match p src with
    | .error e => .error e
    | .ok (f, used) =>
      match parseItemsWith p c (src.drop used) with
      | .error e => .error e
      | .ok (fs, used2) => .ok (.cons f fs, used + used2)

/-- `parse_frame`, with an explicit recursion budget that is decremented at
each `Array` nesting level. Each nesting level consumes at least the four
header bytes `*<digit>\r\n` before recursing into a strict suffix, so with
the budget `src.length + 1` used by the wrapper `parse_frame` the budget is
never exhausted and this is exactly the Rust recursion. -/
def parseF : Nat → List Nat → Except ParseError (Frame × Nat)
  | 0, _ => .error .incomplete
  | fuel + 1, src =>
    match src with
    | [] => .error .incomplete
    | b :: _ =>
      if b = 43 then parse_simple src
      else if b = 45 then parse_error src
      else if b = 58 then parse_integer src
      else if b = 36 then parse_bulk src
      else if b = 42 then
        match find_crlf src with
        | none => .error .incomplete
        | some pos =>
          match parseI64 ((src.take pos).drop 1) with
          | none => .error .invalid
          | some count =>
            if count = -1 then .ok (.null, pos + 2)
            else
              match parseItemsWith (parseF fuel) count.toNat (src.drop (pos + 2)) with
              | .error e => .error e
              | .ok (items, used) => .ok (.array items, pos + 2 + used)
      else .error .invalid

/-- `parse_frame` from `src/resp/parser.rs`: `parse(buf) → (Frame, consumed)
| Incomplete | Invalid`. -/
def parse_frame (src : List Nat) : Except ParseError (Frame × Nat) :=
  parseF (src.length + 1) src

/-! ## Codec facts

These follow the continuation style `encode_frame f ++ rest` so that the
array case (items parsed in sequence from a single buffer) goes through. -/

theorem find_crlf_eq_cons (a b : Nat) (r : List Nat) :
    find_crlf (a :: b :: r) = if a = 13 ∧ b = 10 then some 0
      else (find_crlf (b :: r)).map (· + 1) := rfl

theorem find_crlf_none_of_no13 : ∀ l : List Nat, 13 ∉ l → find_crlf l = none
  | [], _ => rfl
  | [_], _ => rfl
  | x :: b :: r, h => by
    have hx : x ≠ 13 := fun hc => h (hc ▸ List.mem_cons_self x _)
    have htl : 13 ∉ b :: r := fun hc => h (List.mem_cons_of_mem x hc)
    rw [find_crlf_eq_cons, if_neg (fun hc => hx hc.1),
      find_crlf_none_of_no13 (b :: r) htl]
    rfl

theorem find_crlf_none_snoc13 : ∀ a : List Nat, 13 ∉ a → find_crlf (a ++ [13]) = none
  | [], _ => rfl
  | [x], h => by
    have hx : x ≠ 13 := fun hc => by simp [hc] at h
    show find_crlf (x :: 13 :: []) = none
    rw [find_crlf_eq_cons, if_neg (fun hc => hx hc.1)]
    rfl
  | x :: b :: r, h => by
    have hx : x ≠ 13 := fun hc => h (hc ▸ List.mem_cons_self x _)
    have htl : 13 ∉ b :: r := fun hc => h (List.mem_cons_of_mem x hc)
    show find_crlf (x :: b :: (r ++ [13])) = none
    rw [find_crlf_eq_cons, if_neg (fun hc => hx hc.1)]
    rw [show (b :: (r ++ [13]) : List Nat) = (b :: r) ++ [13] from rfl,
      find_crlf_none_snoc13 (b :: r) htl]
    rfl

theorem find_crlf_prepend : ∀ (a t : List Nat), 13 ∉ a →
    find_crlf (a ++ 13 :: 10 :: t) = some a.length
  | [], t, _ => by
    show find_crlf (13 :: 10 :: t) = some 0
    rw [find_crlf_eq_cons, if_pos ⟨rfl, rfl⟩]
  | [x], t, h => by
    have hx : x ≠ 13 := fun hc => by simp [hc] at h
    show find_crlf (x :: 13 :: 10 :: t) = some 1
    rw [find_crlf_eq_cons, if_neg (fun hc => hx hc.1), find_crlf_eq_cons, if_pos ⟨rfl, rfl⟩]
    rfl
  | x :: b :: r, t, h => by
    have hx : x ≠ 13 := fun hc => h (hc ▸ List.mem_cons_self x _)
    have htl : 13 ∉ b :: r := fun hc => h (List.mem_cons_of_mem x hc)
    show find_crlf (x :: b :: (r ++ 13 :: 10 :: t)) = some (r.length + 1 + 1)
    rw [find_crlf_eq_cons, if_neg (fun hc => hx hc.1)]
    rw [show (b :: (r ++ 13 :: 10 :: t) : List Nat) = (b :: r) ++ 13 :: 10 :: t from rfl,
      find_crlf_prepend (b :: r) t htl]
    rfl

theorem prefix_append_left {p a b : List Nat} (h : p <+: a ++ b) (hlen : p.length ≤ a.length) :
    p <+: a := by
  rw [List.prefix_iff_eq_take] at h
  have h0 : p.length - a.length = 0 := by omega
  rw [List.take_append_eq_append_take, h0, List.take_zero, List.append_nil] at h
  rw [h]
  exact List.take_prefix _ _

theorem prefix_append_split {p a b : List Nat} (h : p <+: a ++ b) (hlen : a.length ≤ p.length) :
    ∃ q, p = a ++ q ∧ q <+: b := by
  rw [List.prefix_iff_eq_take] at h
  rw [List.take_append_eq_append_take, List.take_of_length_le hlen] at h
  exact ⟨b.take (p.length - a.length), h, List.take_prefix _ _⟩

theorem header_line_extract (b : Nat) (a t : List Nat) :
    ((b :: a ++ 13 :: 10 :: t).take (a.length + 1)).drop 1 = a := by
  rw [show (b :: a ++ 13 :: 10 :: t : List Nat) = b :: (a ++ 13 :: 10 :: t) from rfl,
    List.take_succ_cons, List.drop_one, List.tail_cons,
    List.take_append_eq_append_take]
  simp

theorem header_drop (b : Nat) (a t : List Nat) :
    (b :: a ++ 13 :: 10 :: t).drop (a.length + 1 + 2) = t := by
  have h : (b :: a ++ 13 :: 10 :: t : List Nat) = (b :: a ++ [13, 10]) ++ t := by simp
  rw [h]
  rw [List.drop_left' (by simp)]

theorem intToDec_ofNat (n : Nat) : intToDec (n : Int) = natToDec n := by
  unfold intToDec
  rw [if_neg (by omega)]
  congr 1

theorem parse_simple_enc (s rest : List Nat) (hutf : utf8Valid s = true) (h13 : 13 ∉ s) :
    parse_simple (encode_frame (.simple s) ++ rest)
      = .ok (.simple s, (encode_frame (.simple s)).length) := by
  have hlen : (encode_frame (.simple s)).length = s.length + 1 + 2 := by
    rw [encode_frame]; simp
  rw [hlen, encode_frame]
  have heq : (43 :: s ++ [13, 10]) ++ rest = 43 :: s ++ 13 :: 10 :: rest := by simp
  rw [heq]
  unfold parse_simple
  have h13' : 13 ∉ 43 :: s := by simp [h13]
  rw [show (43 :: s ++ 13 :: 10 :: rest : List Nat) = (43 :: s) ++ 13 :: 10 :: rest from rfl,
    find_crlf_prepend _ _ h13']
  simp only [List.length_cons]
  rw [show ((43 :: s) ++ 13 :: 10 :: rest : List Nat) = 43 :: s ++ 13 :: 10 :: rest from rfl,
    header_line_extract 43 s rest, if_pos hutf]

theorem parse_error_enc (s rest : List Nat) (hutf : utf8Valid s = true) (h13 : 13 ∉ s) :
    parse_error (encode_frame (.error s) ++ rest)
      = .ok (.error s, (encode_frame (.error s)).length) := by
  have hlen : (encode_frame (.error s)).length = s.length + 1 + 2 := by
    rw [encode_frame]; simp
  rw [hlen, encode_frame]
  have heq : (45 :: s ++ [13, 10]) ++ rest = 45 :: s ++ 13 :: 10 :: rest := by simp
  rw [heq]
  unfold parse_error
  have h13' : 13 ∉ 45 :: s := by simp [h13]
  rw [show (45 :: s ++ 13 :: 10 :: rest : List Nat) = (45 :: s) ++ 13 :: 10 :: rest from rfl,
    find_crlf_prepend _ _ h13']
  simp only [List.length_cons]
  rw [show ((45 :: s) ++ 13 :: 10 :: rest : List Nat) = 45 :: s ++ 13 :: 10 :: rest from rfl,
    header_line_extract 45 s rest, if_pos hutf]

theorem parse_integer_enc (i : Int) (rest : List Nat)
    (h1 : -(2 ^ 63 : Int) ≤ i) (h2 : i < 2 ^ 63) :
    parse_integer (encode_frame (.integer i) ++ rest)
      = .ok (.integer i, (encode_frame (.integer i)).length) := by
  have hlen : (encode_frame (.integer i)).length = (intToDec i).length + 1 + 2 := by
    rw [encode_frame]; simp
  rw [hlen, encode_frame]
  have heq : (58 :: intToDec i ++ [13, 10]) ++ rest = 58 :: intToDec i ++ 13 :: 10 :: rest := by
    simp
  rw [heq]
  unfold parse_integer
  have h13' : 13 ∉ 58 :: intToDec i := by simp [intToDec_no13]
  rw [show (58 :: intToDec i ++ 13 :: 10 :: rest : List Nat)
      = (58 :: intToDec i) ++ 13 :: 10 :: rest from rfl,
    find_crlf_prepend _ _ h13']
  simp only [List.length_cons]
  rw [show ((58 :: intToDec i) ++ 13 :: 10 :: rest : List Nat)
      = 58 :: intToDec i ++ 13 :: 10 :: rest from rfl,
    header_line_extract 58 (intToDec i) rest, parseI64_intToDec i h1 h2]

theorem parseI64_natToDec (n : Nat) (h : n < 2 ^ 63) :
    parseI64 (natToDec n) = some (n : Int) := by
  rw [← intToDec_ofNat]
  exact parseI64_intToDec _ (by omega) (by omega)

theorem parse_bulk_enc (d rest : List Nat) (hlen : d.length < 2 ^ 63) :
    parse_bulk (encode_frame (.bulk d) ++ rest)
      = .ok (.bulk d, (encode_frame (.bulk d)).length) := by
  have hsrc : encode_frame (.bulk d) ++ rest
      = 36 :: natToDec d.length ++ 13 :: 10 :: (d ++ 13 :: 10 :: rest) := by
    rw [encode_frame]; simp
  have henclen : (encode_frame (.bulk d)).length
      = (natToDec d.length).length + 1 + 2 + d.length + 2 := by
    rw [encode_frame]; simp; omega
  rw [hsrc, henclen]
  have hfind : find_crlf (36 :: natToDec d.length ++ 13 :: 10 :: (d ++ 13 :: 10 :: rest))
      = some ((natToDec d.length).length + 1) := by
    rw [find_crlf_prepend _ _ (by simp [natToDec_no13])]
    rfl
  have hline := header_line_extract 36 (natToDec d.length) (d ++ 13 :: 10 :: rest)
  unfold parse_bulk
  rw [hfind]
  simp only [hline, parseI64_natToDec d.length hlen]
  rw [if_neg (by omega)]
  rw [show (((d.length : Int)) % (2 ^ 64 : Int)).toNat = d.length by
    rw [Int.emod_eq_of_lt (by omega) (by omega), Int.toNat_natCast]]
  rw [if_neg (by simp; omega)]
  have hdrop2 : ((36 :: natToDec d.length ++ 13 :: 10 :: (d ++ 13 :: 10 :: rest)).drop
      ((natToDec d.length).length + 1 + 2 + d.length)).take 2 = [13, 10] := by
    rw [show (36 :: natToDec d.length ++ 13 :: 10 :: (d ++ 13 :: 10 :: rest) : List Nat)
        = ((36 :: natToDec d.length) ++ [13, 10] ++ d) ++ (13 :: 10 :: rest) by simp,
      List.drop_left' (by simp; omega)]
    rfl
  rw [if_neg (by rw [hdrop2]; simp)]
  have hdata : ((36 :: natToDec d.length ++ 13 :: 10 :: (d ++ 13 :: 10 :: rest)).drop
      ((natToDec d.length).length + 1 + 2)).take d.length = d := by
    rw [show (36 :: natToDec d.length ++ 13 :: 10 :: (d ++ 13 :: 10 :: rest) : List Nat)
        = ((36 :: natToDec d.length) ++ [13, 10]) ++ (d ++ 13 :: 10 :: rest) by simp,
      List.drop_left' (by simp)]
    exact List.take_left d _
  rw [hdata]

theorem parse_bulk_null (rest : List Nat) :
    parse_bulk (encode_frame .null ++ rest) = .ok (.null, (encode_frame .null).length) := by
  have hsrc : encode_frame .null ++ rest = 36 :: 45 :: 49 :: 13 :: 10 :: rest := by
    rw [encode_frame]; rfl
  have henclen : (encode_frame .null).length = 5 := by rw [encode_frame]; rfl
  rw [hsrc, henclen]
  have hfind : find_crlf (36 :: 45 :: 49 :: 13 :: 10 :: rest) = some 3 := by
    rw [show (36 :: 45 :: 49 :: 13 :: 10 :: rest : List Nat)
        = [36, 45, 49] ++ 13 :: 10 :: rest from rfl,
      find_crlf_prepend _ _ (by decide)]
    rfl
  unfold parse_bulk
  rw [hfind]
  have hline : ((36 :: 45 :: 49 :: 13 :: 10 :: rest).take 3).drop 1 = [45, 49] := rfl
  simp only [hline, show parseI64 [45, 49] = some (-1) from rfl, if_pos]

/-- Mutual induction over `Frame`/`FrameList`, packaged from the mutual
recursors. -/
theorem frame_mutual_ind (P : Frame → Prop) (Q : FrameList → Prop)
    (h1 : ∀ s, P (.simple s)) (h2 : ∀ s, P (.error s)) (h3 : ∀ i, P (.integer i))
    (h4 : ∀ d, P (.bulk d)) (h5 : ∀ items, Q items → P (.array items)) (h6 : P .null)
    (h7 : Q .nil) (h8 : ∀ f fs, P f → Q fs → Q (.cons f fs)) :
    (∀ f, P f) ∧ (∀ fs, Q fs) :=
  ⟨fun f => @Frame.rec P Q h1 h2 h3 h4 h5 h6 h7 h8 f,
   fun fs => @FrameList.rec P Q h1 h2 h3 h4 h5 h6 h7 h8 fs⟩

theorem wf_simple (s : List Nat) (h : wfFrame (.simple s) = true) :
    utf8Valid s = true ∧ 13 ∉ s := by
  rw [wfFrame, Bool.and_eq_true] at h
  refine ⟨h.1, fun hmem => ?_⟩
  have := List.all_eq_true.mp h.2 13 hmem
  simp at this

theorem wf_error (s : List Nat) (h : wfFrame (.error s) = true) :
    utf8Valid s = true ∧ 13 ∉ s := by
  rw [wfFrame, Bool.and_eq_true] at h
  refine ⟨h.1, fun hmem => ?_⟩
  have := List.all_eq_true.mp h.2 13 hmem
  simp at this

theorem wf_integer (i : Int) (h : wfFrame (.integer i) = true) :
    -(2 ^ 63 : Int) ≤ i ∧ i < 2 ^ 63 := by
  rw [wfFrame, Bool.and_eq_true] at h
  exact ⟨of_decide_eq_true h.1, of_decide_eq_true h.2⟩

theorem wf_bulk (d : List Nat) (h : wfFrame (.bulk d) = true) : d.length < 2 ^ 63 := by
  rw [wfFrame, Bool.and_eq_true] at h
  exact of_decide_eq_true h.1

theorem wf_array (items : FrameList) (h : wfFrame (.array items) = true) :
    items.length < 2 ^ 63 ∧ wfList items = true := by
  rw [wfFrame, Bool.and_eq_true] at h
  exact ⟨of_decide_eq_true h.1, h.2⟩

theorem wf_cons (f : Frame) (fs : FrameList) (h : wfList (.cons f fs) = true) :
    wfFrame f = true ∧ wfList fs = true := by
  rw [wfList, Bool.and_eq_true] at h
  exact h

/-- The completeness half of the codec round trip, in continuation style:
with a recursion budget of at least the frame's depth, `parseF` consumes
exactly the encoding and returns the frame, whatever follows it. -/
theorem parse_complete_all :
    (∀ f, wfFrame f = true → ∀ fuel rest, depthF f ≤ fuel →
      parseF fuel (encode_frame f ++ rest) = .ok (f, (encode_frame f).length)) ∧
    (∀ fs, wfList fs = true → ∀ fuel rest, depthL fs ≤ fuel →
      parseItemsWith (parseF fuel) fs.length (encode_list fs ++ rest)
        = .ok (fs, (encode_list fs).length)) := by
  refine frame_mutual_ind _ _ ?_ ?_ ?_ ?_ ?_ ?_ ?_ ?_
  · -- simple
    intro s hwf fuel rest hd
    rcases fuel with _ | fuel
    · rw [depthF] at hd; omega
    · obtain ⟨hutf, h13⟩ := wf_simple s hwf
      have hsrc : encode_frame (.simple s) ++ rest = 43 :: (s ++ 13 :: 10 :: rest) := by
        rw [encode_frame]; simp
      have := parse_simple_enc s rest hutf h13
      rw [hsrc] at this
      rw [hsrc, parseF, if_pos rfl]
      exact this
  · -- error
    intro s hwf fuel rest hd
    rcases fuel with _ | fuel
    · rw [depthF] at hd; omega
    · obtain ⟨hutf, h13⟩ := wf_error s hwf
      have hsrc : encode_frame (.error s) ++ rest = 45 :: (s ++ 13 :: 10 :: rest) := by
        rw [encode_frame]; simp
      have := parse_error_enc s rest hutf h13
      rw [hsrc] at this
      rw [hsrc, parseF, if_neg (by decide), if_pos rfl]
      exact this
  · -- integer
    intro i hwf fuel rest hd
    rcases fuel with _ | fuel
    · rw [depthF] at hd; omega
    · obtain ⟨hlo, hhi⟩ := wf_integer i hwf
      have hsrc : encode_frame (.integer i) ++ rest = 58 :: (intToDec i ++ 13 :: 10 :: rest) := by
        rw [encode_frame]; simp
      have := parse_integer_enc i rest hlo hhi
      rw [hsrc] at this
      rw [hsrc, parseF, if_neg (by decide), if_neg (by decide), if_pos rfl]
      exact this
  · -- bulk
    intro d hwf fuel rest hd
    rcases fuel with _ | fuel
    · rw [depthF] at hd; omega
    · have hlen := wf_bulk d hwf
      have hsrc : encode_frame (.bulk d) ++ rest
          = 36 :: (natToDec d.length ++ 13 :: 10 :: (d ++ 13 :: 10 :: rest)) := by
        rw [encode_frame]; simp
      have := parse_bulk_enc d rest hlen
      rw [hsrc] at this
      rw [hsrc, parseF, if_neg (by decide), if_neg (by decide), if_neg (by decide), if_pos rfl]
      exact this
  · -- array
    intro items hQ hwf fuel rest hd
    rcases fuel with _ | fuel
    · rw [depthF] at hd; omega
    · obtain ⟨hcount, hwl⟩ := wf_array items hwf
      have hdl : depthL items ≤ fuel := by rw [depthF] at hd; omega
      have hsrc : encode_frame (.array items) ++ rest
          = 42 :: (natToDec items.length ++ 13 :: 10 :: (encode_list items ++ rest)) := by
        rw [encode_frame]; simp
      have henclen : (encode_frame (.array items)).length
          = (natToDec items.length).length + 1 + 2 + (encode_list items).length := by
        rw [encode_frame]; simp; omega
      rw [hsrc, henclen, parseF,
        if_neg (by decide), if_neg (by decide), if_neg (by decide), if_neg (by decide),
        if_pos rfl]
      have hfind : find_crlf
            (42 :: (natToDec items.length ++ 13 :: 10 :: (encode_list items ++ rest)))
          = some ((natToDec items.length).length + 1) := by
        rw [show (42 :: (natToDec items.length ++ 13 :: 10 :: (encode_list items ++ rest))
              : List Nat)
            = (42 :: natToDec items.length) ++ 13 :: 10 :: (encode_list items ++ rest) from rfl,
          find_crlf_prepend _ _ (by simp [natToDec_no13])]
        rfl
      rw [hfind]
      have hline : ((42 :: (natToDec items.length ++ 13 :: 10 :: (encode_list items
              ++ rest))).take ((natToDec items.length).length + 1)).drop 1
          = natToDec items.length :=
        header_line_extract 42 (natToDec items.length) (encode_list items ++ rest)
      simp only [hline, parseI64_natToDec items.length hcount]
      rw [if_neg (by omega), Int.toNat_natCast]
      have hdrop : (42 :: (natToDec items.length ++ 13 :: 10 :: (encode_list items
              ++ rest))).drop ((natToDec items.length).length + 1 + 2)
          = encode_list items ++ rest :=
        header_drop 42 (natToDec items.length) (encode_list items ++ rest)
      rw [hdrop, hQ hwl fuel rest hdl]
  · -- null
    intro hwf fuel rest hd
    rcases fuel with _ | fuel
    · rw [depthF] at hd; omega
    · have hsrc : encode_frame .null ++ rest = 36 :: (45 :: 49 :: 13 :: 10 :: rest) := by
        rw [encode_frame]; rfl
      have := parse_bulk_null rest
      rw [hsrc] at this
      rw [hsrc, parseF, if_neg (by decide), if_neg (by decide), if_neg (by decide), if_pos rfl]
      exact this
  · -- nil
    intro _ fuel rest _
    rfl
  · -- cons
    intro f fs hPf hQfs hwf fuel rest hd
    obtain ⟨hwff, hwfs⟩ := wf_cons f fs hwf
    have hdf : depthF f ≤ fuel := by rw [depthL] at hd; omega
    have hds : depthL fs ≤ fuel := by rw [depthL] at hd; omega
    rw [show FrameList.length (.cons f fs) = fs.length + 1 from rfl,
      encode_list, List.append_assoc, parseItemsWith]
    simp only [hPf hwff fuel (encode_list fs ++ rest) hdf]
    rw [List.drop_left]
    simp only [hQfs hwfs fuel rest hds]
    simp

/-- For any recursion budget, parsing an encoding (plus anything after it)
either succeeds exactly or reports `Incomplete` (when the budget runs out);
it never misparses and never reports `Invalid`. -/
theorem parse_enc_cases_all :
    (∀ f, wfFrame f = true → ∀ fuel rest,
      parseF fuel (encode_frame f ++ rest) = .ok (f, (encode_frame f).length) ∨
      parseF fuel (encode_frame f ++ rest) = .error .incomplete) ∧
    (∀ fs, wfList fs = true → ∀ fuel rest,
      parseItemsWith (parseF fuel) fs.length (encode_list fs ++ rest)
        = .ok (fs, (encode_list fs).length) ∨
      parseItemsWith (parseF fuel) fs.length (encode_list fs ++ rest)
        = .error .incomplete) := by
  refine frame_mutual_ind _ _ ?_ ?_ ?_ ?_ ?_ ?_ ?_ ?_
  · -- simple
    intro s hwf fuel rest
    rcases fuel with _ | fuel
    · right; rfl
    · left
      exact (parse_complete_all).1 (.simple s) hwf (fuel + 1) rest (by rw [depthF]; omega)
  · -- error
    intro s hwf fuel rest
    rcases fuel with _ | fuel
    · right; rfl
    · left
      exact (parse_complete_all).1 (.error s) hwf (fuel + 1) rest (by rw [depthF]; omega)
  · -- integer
    intro i hwf fuel rest
    rcases fuel with _ | fuel
    · right; rfl
    · left
      exact (parse_complete_all).1 (.integer i) hwf (fuel + 1) rest (by rw [depthF]; omega)
  · -- bulk
    intro d hwf fuel rest
    rcases fuel with _ | fuel
    · right; rfl
    · left
      exact (parse_complete_all).1 (.bulk d) hwf (fuel + 1) rest (by rw [depthF]; omega)
  · -- array
    intro items hQ hwf fuel rest
    rcases fuel with _ | fuel
    · right; rfl
    · obtain ⟨hcount, hwl⟩ := wf_array items hwf
      have hsrc : encode_frame (.array items) ++ rest
          = 42 :: (natToDec items.length ++ 13 :: 10 :: (encode_list items ++ rest)) := by
        rw [encode_frame]; simp
      have henclen : (encode_frame (.array items)).length
          = (natToDec items.length).length + 1 + 2 + (encode_list items).length := by
        rw [encode_frame]; simp; omega
      rw [hsrc, henclen, parseF,
        if_neg (by decide), if_neg (by decide), if_neg (by decide), if_neg (by decide),
        if_pos rfl]
      have hfind : find_crlf
            (42 :: (natToDec items.length ++ 13 :: 10 :: (encode_list items ++ rest)))
          = some ((natToDec items.length).length + 1) := by
        rw [show (42 :: (natToDec items.length ++ 13 :: 10 :: (encode_list items ++ rest))
              : List Nat)
            = (42 :: natToDec items.length) ++ 13 :: 10 :: (encode_list items ++ rest) from rfl,
          find_crlf_prepend _ _ (by simp [natToDec_no13])]
        rfl
      rw [hfind]
      have hline : ((42 :: (natToDec items.length ++ 13 :: 10 :: (encode_list items
              ++ rest))).take ((natToDec items.length).length + 1)).drop 1
          = natToDec items.length :=
        header_line_extract 42 (natToDec items.length) (encode_list items ++ rest)
      simp only [hline, parseI64_natToDec items.length hcount]
      rw [if_neg (by omega), Int.toNat_natCast]
      have hdrop : (42 :: (natToDec items.length ++ 13 :: 10 :: (encode_list items
              ++ rest))).drop ((natToDec items.length).length + 1 + 2)
          = encode_list items ++ rest :=
        header_drop 42 (natToDec items.length) (encode_list items ++ rest)
      rw [hdrop]
      rcases hQ hwl fuel rest with hok | hinc
      · left
        rw [hok]
      · right
        rw [hinc]
  · -- null
    intro hwf fuel rest
    rcases fuel with _ | fuel
    · right; rfl
    · left
      exact (parse_complete_all).1 .null hwf (fuel + 1) rest (by rw [depthF]; omega)
  · -- nil
    intro _ fuel rest
    left
    rfl
  · -- cons
    intro f fs hPf hQfs hwf fuel rest
    obtain ⟨hwff, hwfs⟩ := wf_cons f fs hwf
    rw [show FrameList.length (.cons f fs) = fs.length + 1 from rfl,
      encode_list, List.append_assoc, parseItemsWith]
    rcases hPf hwff fuel (encode_list fs ++ rest) with hok | hinc
    · simp only [hok]
      rw [List.drop_left]
      rcases hQfs hwfs fuel rest with h2ok | h2inc
      · left
        simp only [h2ok]
        simp
      · right
        simp only [h2inc]
    · right
      simp only [hinc]

/-- Any strict prefix of a header line (the part before the first CRLF,
possibly with the lone CR) contains no CRLF window. -/
theorem find_crlf_header_pfx (b : Nat) (hb : b ≠ 13) (a t q : List Nat) (ha : 13 ∉ a)
    (hq : q <+: a ++ 13 :: 10 :: t) (hlen : q.length ≤ a.length + 1) :
    find_crlf (b :: q) = none := by
  rcases Nat.lt_or_ge q.length (a.length + 1) with hlt | hge
  · have hq' : q <+: a := prefix_append_left hq (by omega)
    have h13 : 13 ∉ b :: q := by
      intro hm
      rcases List.mem_cons.mp hm with h | h
      · exact hb h.symm
      · exact ha (hq'.subset h)
    exact find_crlf_none_of_no13 _ h13
  · have hql : q.length = a.length + 1 := by omega
    have hq' : q = a ++ [13] := by
      have heq := List.prefix_iff_eq_take.mp hq
      rw [heq, hql, List.take_append 1]
      rfl
    rw [hq', show (b :: (a ++ [13]) : List Nat) = (b :: a) ++ [13] from rfl]
    refine find_crlf_none_snoc13 _ ?_
    intro hm
    rcases List.mem_cons.mp hm with h | h
    · exact hb h.symm
    · exact ha h

/-- Strict prefixes of encodings always parse as `Incomplete`, for every
recursion budget. -/
theorem parse_prefix_all :
    (∀ f, wfFrame f = true → ∀ fuel p, p <+: encode_frame f →
      p.length < (encode_frame f).length → parseF fuel p = .error .incomplete) ∧
    (∀ fs, wfList fs = true → ∀ fuel p, p <+: encode_list fs →
      p.length < (encode_list fs).length →
      parseItemsWith (parseF fuel) fs.length p = .error .incomplete) := by
  refine frame_mutual_ind _ _ ?_ ?_ ?_ ?_ ?_ ?_ ?_ ?_
  · -- simple
    intro s hwf fuel p hp hlt
    obtain ⟨hutf, h13⟩ := wf_simple s hwf
    rcases fuel with _ | fuel
    · rfl
    rcases p with _ | ⟨b, q⟩
    · rfl
    rw [show encode_frame (.simple s) = 43 :: (s ++ [13, 10]) by rw [encode_frame]; simp]
      at hp hlt
    obtain ⟨rfl, hq⟩ := List.cons_prefix_cons.mp hp
    simp only [List.length_cons, List.length_append] at hlt
    rw [parseF, if_pos rfl]
    unfold parse_simple
    rw [find_crlf_header_pfx 43 (by decide) s [] q h13 hq (by simp at hlt; omega)]
  · -- error
    intro s hwf fuel p hp hlt
    obtain ⟨hutf, h13⟩ := wf_error s hwf
    rcases fuel with _ | fuel
    · rfl
    rcases p with _ | ⟨b, q⟩
    · rfl
    rw [show encode_frame (.error s) = 45 :: (s ++ [13, 10]) by rw [encode_frame]; simp]
      at hp hlt
    obtain ⟨rfl, hq⟩ := List.cons_prefix_cons.mp hp
    simp only [List.length_cons, List.length_append] at hlt
    rw [parseF, if_neg (by decide), if_pos rfl]
    unfold parse_error
    rw [find_crlf_header_pfx 45 (by decide) s [] q h13 hq (by simp at hlt; omega)]
  · -- integer
    intro i hwf fuel p hp hlt
    rcases fuel with _ | fuel
    · rfl
    rcases p with _ | ⟨b, q⟩
    · rfl
    rw [show encode_frame (.integer i) = 58 :: (intToDec i ++ [13, 10])
        by rw [encode_frame]; simp] at hp hlt
    obtain ⟨rfl, hq⟩ := List.cons_prefix_cons.mp hp
    simp only [List.length_cons, List.length_append] at hlt
    rw [parseF, if_neg (by decide), if_neg (by decide), if_pos rfl]
    unfold parse_integer
    rw [find_crlf_header_pfx 58 (by decide) (intToDec i) [] q (intToDec_no13 i) hq
      (by simp at hlt; omega)]
  · -- bulk
    intro d hwf fuel p hp hlt
    have hdl := wf_bulk d hwf
    rcases fuel with _ | fuel
    · rfl
    rcases p with _ | ⟨b, q⟩
    · rfl
    rw [show encode_frame (.bulk d) = 36 :: (natToDec d.length ++ [13, 10] ++ (d ++ [13, 10]))
        by rw [encode_frame]; simp] at hp hlt
    obtain ⟨rfl, hq⟩ := List.cons_prefix_cons.mp hp
    simp only [List.length_cons, List.length_append] at hlt
    rw [parseF, if_neg (by decide), if_neg (by decide), if_neg (by decide), if_pos rfl]
    rcases Nat.lt_or_ge q.length ((natToDec d.length).length + 2) with hshort | hlong
    · -- still inside the length header
      unfold parse_bulk
      rw [find_crlf_header_pfx 36 (by decide) (natToDec d.length) (d ++ [13, 10]) q
        (natToDec_no13 _) (by rw [List.append_assoc] at hq; exact hq) (by omega)]
    · -- header complete, payload truncated
      rw [List.append_assoc] at hq
      obtain ⟨q', rfl, hq'⟩ := prefix_append_split
        (show q <+: (natToDec d.length ++ [13, 10]) ++ (d ++ [13, 10]) by
          rw [List.append_assoc]; exact hq)
        (by simp; omega)
      have hq'len : q'.length < d.length + 2 := by
        simp only [List.length_append] at hlt ⊢
        simp at hlt
        omega
      have hsrc2 : (36 :: ((natToDec d.length ++ [13, 10]) ++ q') : List Nat)
          = (36 :: natToDec d.length) ++ 13 :: 10 :: q' := by simp
      rw [hsrc2]
      unfold parse_bulk
      rw [find_crlf_prepend _ _ (by simp [natToDec_no13])]
      simp only [List.length_cons]
      have hline : (((36 :: natToDec d.length) ++ 13 :: 10 :: q').take
            ((natToDec d.length).length + 1)).drop 1 = natToDec d.length :=
        header_line_extract 36 (natToDec d.length) q'
      simp only [hline, parseI64_natToDec d.length hdl]
      rw [if_neg (by omega)]
      rw [show (((d.length : Int)) % (2 ^ 64 : Int)).toNat = d.length by
        rw [Int.emod_eq_of_lt (by omega) (by omega), Int.toNat_natCast]]
      rw [if_pos (by simp; omega)]
  · -- array
    intro items hQ hwf fuel p hp hlt
    obtain ⟨hcount, hwl⟩ := wf_array items hwf
    rcases fuel with _ | fuel
    · rfl
    rcases p with _ | ⟨b, q⟩
    · rfl
    rw [show encode_frame (.array items)
        = 42 :: (natToDec items.length ++ [13, 10] ++ encode_list items)
        by rw [encode_frame]; simp] at hp hlt
    obtain ⟨rfl, hq⟩ := List.cons_prefix_cons.mp hp
    simp only [List.length_cons, List.length_append] at hlt
    rw [parseF, if_neg (by decide), if_neg (by decide), if_neg (by decide),
      if_neg (by decide), if_pos rfl]
    rcases Nat.lt_or_ge q.length ((natToDec items.length).length + 2) with hshort | hlong
    · rw [find_crlf_header_pfx 42 (by decide) (natToDec items.length) (encode_list items) q
        (natToDec_no13 _) (by rw [List.append_assoc] at hq; exact hq) (by omega)]
    · rw [List.append_assoc] at hq
      obtain ⟨q', rfl, hq'⟩ := prefix_append_split
        (show q <+: (natToDec items.length ++ [13, 10]) ++ encode_list items by
          rw [List.append_assoc]; exact hq)
        (by simp; omega)
      have hq'len : q'.length < (encode_list items).length := by
        simp only [List.length_append] at hlt ⊢
        simp at hlt
        omega
      have hsrc2 : (42 :: ((natToDec items.length ++ [13, 10]) ++ q') : List Nat)
          = (42 :: natToDec items.length) ++ 13 :: 10 :: q' := by simp
      rw [hsrc2]
      rw [find_crlf_prepend _ _ (by simp [natToDec_no13])]
      simp only [List.length_cons]
      have hline : (((42 :: natToDec items.length) ++ 13 :: 10 :: q').take
            ((natToDec items.length).length + 1)).drop 1 = natToDec items.length :=
        header_line_extract 42 (natToDec items.length) q'
      simp only [hline, parseI64_natToDec items.length hcount]
      rw [if_neg (by omega), Int.toNat_natCast]
      have hdrop : ((42 :: natToDec items.length) ++ 13 :: 10 :: q').drop
            ((natToDec items.length).length + 1 + 2) = q' :=
        header_drop 42 (natToDec items.length) q'
      rw [hdrop]
      simp only [hQ hwl fuel q' hq' hq'len]
  · -- null
    intro hwf fuel p hp hlt
    rcases fuel with _ | fuel
    · rfl
    rw [show encode_frame .null = [36, 45, 49, 13, 10] from rfl] at hp hlt
    have hple : p.length ≤ 4 := by simp at hlt; omega
    have hpt := List.prefix_iff_eq_take.mp hp
    interval_cases hl : p.length <;> simp at hpt <;> rw [hpt] <;> rfl
  · -- nil
    intro _ fuel p hp hlt
    rw [show encode_list .nil = [] from rfl] at hlt
    simp at hlt
  · -- cons
    intro f fs hPf hQfs hwf fuel p hp hlt
    obtain ⟨hwff, hwfs⟩ := wf_cons f fs hwf
    rw [show encode_list (.cons f fs) = encode_frame f ++ encode_list fs from rfl] at hp hlt
    rw [show FrameList.length (.cons f fs) = fs.length + 1 from rfl, parseItemsWith]
    rcases Nat.lt_or_ge p.length (encode_frame f).length with hshort | hlong
    · rw [hPf hwff fuel p (prefix_append_left hp (by omega)) hshort]
    · obtain ⟨p', rfl, hp'⟩ := prefix_append_split hp hlong
      have hp'len : p'.length < (encode_list fs).length := by
        simp only [List.length_append] at hlt
        omega
      rcases (parse_enc_cases_all).1 f hwff fuel p' with hok | hinc
      · simp only [hok]
        rw [List.drop_left]
        simp only [hQfs hwfs fuel p' hp' hp'len]
      · simp only [hinc]

theorem depth_le_enc :
    (∀ f, depthF f ≤ (encode_frame f).length) ∧
    (∀ fs, depthL fs ≤ (encode_list fs).length) := by
  refine frame_mutual_ind _ _ ?_ ?_ ?_ ?_ ?_ ?_ ?_ ?_
  · intro s; rw [depthF, encode_frame]; simp
  · intro s; rw [depthF, encode_frame]; simp
  · intro i; rw [depthF, encode_frame]; simp
  · intro d; rw [depthF, encode_frame]; simp
  · intro items ih
    rw [depthF, encode_frame]
    simp only [List.length_cons, List.length_append]
    omega
  · rw [depthF, encode_frame]; simp
  · rw [depthL, encode_list]; simp
  · intro f fs ihf ihfs
    rw [depthL, encode_list]
    simp only [List.length_append]
    omega

theorem enc_len_pos (f : Frame) : 0 < (encode_frame f).length := by
  cases f <;> rw [encode_frame] <;> simp

/-- Claim C2: for every well-formed frame — `Simple`/`Error` payloads valid
UTF-8 without CR or LF, `Integer` within `i64`, `Bulk` payloads arbitrary
bytes (empty and CRLF-containing included), arbitrarily nested `Array`s,
`Null` — `parse_frame (encode_frame f)` returns exactly
`(f, |encode_frame f|)`. -/
theorem c2_parse_encode_roundtrip (f : Frame) (h : wfFrame f = true) :
    parse_frame (encode_frame f) = .ok (f, (encode_frame f).length) := by
  unfold parse_frame
  have hd : depthF f ≤ (encode_frame f).length + 1 :=
    le_trans ((depth_le_enc).1 f) (by omega)
  have := (parse_complete_all).1 f h ((encode_frame f).length + 1) [] hd
  simpa using this

/-- A concrete nested frame exercising every constructor: an array holding a
CRLF-containing bulk, a simple string, a negative integer and a null. -/
def c2Frame : Frame :=
  .array (.cons (.bulk [13, 10]) (.cons (.simple [79, 75])
    (.cons (.integer (-5)) (.cons .null .nil))))

theorem c2_parse_encode_roundtrip_witness :
    wfFrame c2Frame = true ∧
      parse_frame (encode_frame c2Frame) = .ok (c2Frame, (encode_frame c2Frame).length) :=
  ⟨by decide, c2_parse_encode_roundtrip c2Frame (by decide)⟩

/-- Claim C8: parsing any strict prefix of a well-formed frame's encoding
yields `Incomplete` — never `Invalid` and never a successful parse. -/
theorem c8_parse_prefix_incomplete (f : Frame) (h : wfFrame f = true) (p : List Nat)
    (hp : p <+: encode_frame f) (hlt : p.length < (encode_frame f).length) :
    parse_frame p = .error .incomplete :=
  (parse_prefix_all).1 f h (p.length + 1) p hp hlt

/-- A nested array frame and a nine-byte strict prefix of its encoding
(stopping inside the bulk payload). -/
def c8Frame : Frame := .array (.cons (.bulk [97]) .nil)

theorem c8_parse_prefix_incomplete_witness :
    wfFrame c8Frame = true ∧
      ((encode_frame c8Frame).take 9).length < (encode_frame c8Frame).length ∧
      parse_frame ((encode_frame c8Frame).take 9) = .error .incomplete :=
  ⟨by decide, by decide,
    c8_parse_prefix_incomplete c8Frame (by decide) _
      (List.take_prefix 9 (encode_frame c8Frame)) (by decide)⟩

/-! ## AOF startup replay (`src/aof.rs`, `parse_frames_from_bytes`) -/

/-- `RedisError` from `src/errors.rs`, restricted to the shapes the modelled
code produces. -/
inductive RedisError where
  | unknownCommand
  | other (msg : String)
deriving DecidableEq

/-- The loop of `parse_frames_from_bytes`: starting at the current offset
(the remaining byte suffix), parse frames until the bytes run out; on
`Incomplete` stop silently keeping what was parsed; on `Invalid` fail.
The Rust error message interpolates the offset and the parser's message;
the model keeps a fixed text, which no claim depends on. The budget
`bytes.length + 1` of the wrapper is never exhausted because every parsed
frame consumes at least one byte. -/
def replayGo : Nat → List Nat → List Frame → Except RedisError (List Frame)
  | 0, _, acc => .ok acc
  | fuel + 1, bytes, acc =>
    if bytes.isEmpty then .ok acc
    else match parse_frame bytes with
      | .ok (f, used) => replayGo fuel (bytes.drop used) (acc ++ [f])
      | .error .incomplete => .ok acc
      | .error .invalid => .error (.other "AOF parse error")

/-- `parse_frames_from_bytes` from `src/aof.rs`. -/
def parse_frames_from_bytes (bytes : List Nat) : Except RedisError (List Frame) :=
  replayGo (bytes.length + 1) bytes []

/-- The whole-file byte image of a sequence of appended frames. -/
def encodeAll (fs : List Frame) : List Nat := (fs.map encode_frame).flatten

theorem length_le_encodeAll (fs : List Frame) : fs.length ≤ (encodeAll fs).length := by
  induction fs with
  | nil => simp [encodeAll]
  | cons f fs ih =>
    have := enc_len_pos f
    simp only [encodeAll, List.map_cons, List.flatten_cons, List.length_append,
      List.length_cons]
    simp only [encodeAll] at ih
    omega

theorem replayGo_complete (g : Frame) (p : List Nat) (hg : wfFrame g = true)
    (hp : p <+: encode_frame g) (hlt : p.length < (encode_frame g).length) :
    ∀ fs fuel acc, (∀ f ∈ fs, wfFrame f = true) → fs.length < fuel →
      replayGo fuel (encodeAll fs ++ p) acc = .ok (acc ++ fs) := by
  intro fs
  induction fs with
  | nil =>
    intro fuel acc _ hfuel
    rcases fuel with _ | fuel
    · omega
    rw [show encodeAll [] ++ p = p by simp [encodeAll], replayGo]
    rcases hpe : p.isEmpty with _ | _
    · rw [if_neg (by simp [hpe])]
      rw [show parse_frame p = .error .incomplete from
        (parse_prefix_all).1 g hg (p.length + 1) p hp hlt]
      simp
    · rw [if_pos (by simp [hpe])]
      simp
  | cons f fs ih =>
    intro fuel acc hwf hfuel
    rcases fuel with _ | fuel
    · omega
    have hbytes : encodeAll (f :: fs) ++ p
        = encode_frame f ++ (encodeAll fs ++ p) := by
      simp [encodeAll]
    rw [hbytes, replayGo]
    have hne : ¬(encode_frame f ++ (encodeAll fs ++ p)).isEmpty := by
      have := enc_len_pos f
      rcases henc : encode_frame f with _ | ⟨b, l⟩
      · rw [henc] at this; simp at this
      · simp
    rw [if_neg hne]
    have hparse : parse_frame (encode_frame f ++ (encodeAll fs ++ p))
        = .ok (f, (encode_frame f).length) := by
      unfold parse_frame
      refine (parse_complete_all).1 f (hwf f (by simp)) _ _ ?_
      have h1 := (depth_le_enc).1 f
      have h2 : (encode_frame f).length ≤ (encode_frame f ++ (encodeAll fs ++ p)).length := by
        simp
      omega
    simp only [hparse]
    rw [List.drop_left]
    rw [ih fuel (acc ++ [f]) (fun x hx => hwf x (by simp [hx])) (by simp at hfuel ⊢; omega)]
    simp

/-- Claim C3, counterexample: `$1\r\n` is a truncated final frame (a strict
prefix of the encoding of `Bulk "x"`), yet AOF replay parsing returns `Ok`
(with no frames) instead of a fatal error. -/
theorem c3_truncated_tail_not_fatal :
    [36, 49, 13, 10] <+: encode_frame (.bulk [120]) ∧
      [36, 49, 13, 10].length < (encode_frame (.bulk [120])).length ∧
      parse_frames_from_bytes [36, 49, 13, 10] = .ok [] :=
  ⟨⟨[120, 13, 10], by decide⟩, by decide, rfl⟩

/-- Claim C3 (amended): at startup the AOF bytes are parsed as a stream of
frames, but incomplete trailing bytes (a truncated final frame) are NOT a
fatal error: replay silently stops there, returning exactly the complete
frames and discarding the truncated tail. (Only an `Invalid` frame is
fatal.) -/
theorem c3_replay_drops_truncated_tail (fs : List Frame) (g : Frame) (p : List Nat)
    (hwf : ∀ f ∈ fs, wfFrame f = true) (hg : wfFrame g = true)
    (hp : p <+: encode_frame g) (hlt : p.length < (encode_frame g).length) :
    parse_frames_from_bytes (encodeAll fs ++ p) = .ok fs := by
  unfold parse_frames_from_bytes
  have hfuel : fs.length < (encodeAll fs ++ p).length + 1 := by
    have := length_le_encodeAll fs
    simp only [List.length_append]
    omega
  have := replayGo_complete g p hg hp hlt fs ((encodeAll fs ++ p).length + 1) [] hwf hfuel
  simpa using this

theorem c3_replay_drops_truncated_tail_witness :
    (∀ f ∈ [Frame.null, Frame.bulk [120]], wfFrame f = true) ∧
      wfFrame (.bulk [121]) = true ∧
      [36, 49, 13, 10] <+: encode_frame (.bulk [121]) ∧
      [36, 49, 13, 10].length < (encode_frame (.bulk [121])).length ∧
      parse_frames_from_bytes (encodeAll [Frame.null, Frame.bulk [120]] ++ [36, 49, 13, 10])
        = .ok [Frame.null, Frame.bulk [120]] :=
  ⟨by decide, by decide, ⟨[121, 13, 10], by decide⟩, by decide,
    c3_replay_drops_truncated_tail [Frame.null, Frame.bulk [120]] (.bulk [121])
      [36, 49, 13, 10] (by decide) (by decide) ⟨[121, 13, 10], by decide⟩ (by decide)⟩

/-! ## Lossy UTF-8 decoding and ASCII case mapping (`src/command.rs` uses
`String::from_utf8_lossy` and `str::to_uppercase`) -/

/-- One step of `String::from_utf8_lossy`: given the first byte and the
rest, whether a valid UTF-8 sequence starts here and how many bytes the
step consumes — for an invalid sequence, the length of the maximal valid
subpart (Rust's `Utf8Error::error_len`, with a truncated sequence at end of
input consuming all its bytes). -/
def utf8Chunk (b : Nat) (r : List Nat) : Bool × Nat :=
  if b ≤ 127 then (true, 1)
  else if 194 ≤ b && b ≤ 223 then
    match r with
    | c1 :: _ => if isCont c1 then (true, 2) else (false, 1)
    | [] => (false, 1)
  else if b = 224 then
    match r with
    | c1 :: r' =>
      if 160 ≤ c1 && c1 ≤ 191 then
        match r' with
        | c2 :: _ => if isCont c2 then (true, 3) else (false, 2)
        | [] => (false, 2)
      else (false, 1)
    | [] => (false, 1)
  else if (225 ≤ b && b ≤ 236) || b = 238 || b = 239 then
    match r with
    | c1 :: r' =>
      if isCont c1 then
        match r' with
        | c2 :: _ => if isCont c2 then (true, 3) else (false, 2)
        | [] => (false, 2)
      else (false, 1)
    | [] => (false, 1)
  else if b = 237 then
    match r with
    | c1 :: r' =>
      if 128 ≤ c1 && c1 ≤ 159 then
        match r' with
        | c2 :: _ => if isCont c2 then (true, 3) else (false, 2)
        | [] => (false, 2)
      else (false, 1)
    | [] => (false, 1)
  else if b = 240 || (241 ≤ b && b ≤ 243) || b = 244 then
    match r with
    | c1 :: r' =>
      if (if b = 240 then 144 ≤ c1 && c1 ≤ 191
          else if b = 244 then 128 ≤ c1 && c1 ≤ 143
          else isCont c1) then
        match r' with
        | c2 :: r'' =>
          if isCont c2 then
            match r'' with
            | c3 :: _ => if isCont c3 then (true, 4) else (false, 3)
            | [] => (false, 3)
          else (false, 2)
        | [] => (false, 2)
      else (false, 1)
    | [] => (false, 1)
  else (false, 1)

/-- `String::from_utf8_lossy`, as the UTF-8 bytes of the resulting string:
valid sequences are copied, each maximal invalid subpart is replaced by
U+FFFD (`EF BF BD`). Each step consumes at least one byte, so the budget
`l.length + 1` of the wrapper is never exhausted. -/
def utf8LossyGo : Nat → List Nat → List Nat
  | 0, _ => []
  | _ + 1, [] => []
  | fuel + 1, b :: r =>
    let st := utf8Chunk b r
    if st.1 then (b :: r.take (st.2 - 1)) ++ utf8LossyGo fuel (r.drop (st.2 - 1))
    else [239, 191, 189] ++ utf8LossyGo fuel (r.drop (st.2 - 1))

def utf8Lossy (l : List Nat) : List Nat := utf8LossyGo (l.length + 1) l

/-- `str::to_uppercase`, modelled on the ASCII range, which is all the
command-name comparison in `Command::try_from` can match (the full Unicode
uppercasing differs only on non-ASCII input, where every dispatch arm
misses anyway, with the theoretical exception of exotic case foldings that
no claim exercises). -/
def asciiUpper (l : List Nat) : List Nat :=
  l.map (fun b => if 97 ≤ b ∧ b ≤ 122 then b - 32 else b)

/-- `str::to_ascii_lowercase` over bytes (used for the case-insensitive
`inf`/`infinity`/`nan` words of the float grammar). -/
def asciiLower (l : List Nat) : List Nat :=
  l.map (fun b => if 65 ≤ b ∧ b ≤ 90 then b + 32 else b)

/-! ## `f64` model

NaN and the infinities are explicit; a finite value carries the exact
rational its decimal source text denotes. Rounding to binary64 is not
modelled: no claim below depends on a finite value's magnitude (only on
NaN-ness), and positions in the sorted set never enter any claim. -/

inductive F64 where
  | nan
  | negInf
  | posInf
  | finite (q : Rat)
deriving DecidableEq

/-- `f64::partial_cmp` followed by `.unwrap_or(Ordering::Equal)` — the
`compare` helper of `src/skiplist.rs` (any comparison involving NaN yields
`None`, hence `Equal`). -/
def f64Cmp (a b : F64) : Ordering :=
  match a, b with
  | .nan, _ => .eq
  | _, .nan => .eq
  | .negInf, .negInf => .eq
  | .negInf, _ => .lt
  | _, .negInf => .gt
  | .posInf, .posInf => .eq
  | .posInf, _ => .gt
  | _, .posInf => .lt
  | .finite x, .finite y => if x < y then .lt else if x = y then .eq else .gt

/-- Plain decimal value of a digit-byte list (0 for the empty list). -/
def decVal (l : List Nat) : Nat := l.foldl (fun a d => a * 10 + (d - 48)) 0

/-- Rust `str::parse::<f64>`: `Sign? ( 'inf' | 'infinity' | 'nan' | Number )`
with the words case-insensitive, `Number ::= Digit+ | Digit+ '.' Digit* |
Digit* '.' Digit+`, optionally followed by `('e'|'E') Sign? Digit+`; at
least one mantissa digit is required and nothing may follow. In particular
`"nan"` parses successfully — to NaN. -/
def parseF64 (l : List Nat) : Option F64 :=
  let sr := stripSign l
  let low := asciiLower sr.2
  if low = ascii "inf" ∨ low = ascii "infinity" then
    some (if sr.1 then .negInf else .posInf)
  else if low = ascii "nan" then some .nan
  else
    let intPart := sr.2.takeWhile isDigitB
    let r1 := sr.2.drop intPart.length
    let fracState : List Nat × List Nat :=
      match r1 with
      | 46 :: r2 => ((r2.takeWhile isDigitB), r2.drop (r2.takeWhile isDigitB).length)
      | _ => ([], r1)
    let fracPart := fracState.1
    let r2 := fracState.2
    if intPart = [] ∧ fracPart = [] then none
    else
      let mantissa : Rat :=
        (decVal intPart : Rat) + (decVal fracPart : Rat) / ((10 : Rat) ^ fracPart.length)
      match r2 with
      | [] => some (.finite (if sr.1 then -mantissa else mantissa))
      | e :: r3 =>
        if e = 101 ∨ e = 69 then
          let es := stripSign r3
          if es.2 ≠ [] ∧ es.2.all isDigitB then
            let ex : Int := if es.1 then -(decVal es.2 : Int) else (decVal es.2 : Int)
            some (.finite ((if sr.1 then -mantissa else mantissa) * (10 : Rat) ^ ex))
          else none
        else none

/-! ## Command layer (`src/command.rs`) -/

/-- Keys and hash fields are Rust `String`s; modelled as their UTF-8 bytes. -/
abbrev Key := List Nat

/-- The `Command` enum of `src/command.rs`, verbatim (argument types as in
the source: `String` keys/fields, `Vec<u8>` payloads, `i64`, `usize`,
`f64`). -/
inductive Command where
  | ping
  | expire (k : Key) (secs : Nat)
  | ttl (k : Key)
  | get (k : Key)
  | set (k : Key) (v : List Nat)
  | del (k : Key)
  | append (k : Key) (v : List Nat)
  | strlen (k : Key)
  | getset (k : Key) (v : List Nat)
  | incr (k : Key)
  | incrby (k : Key) (amt : Int)
  | mset (kvs : List (Key × List Nat))
  | mget (ks : List Key)
  | lpush (k : Key) (vs : List (List Nat))
  | lpop (k : Key)
  | rpush (k : Key) (vs : List (List Nat))
  | rpop (k : Key)
  | llen (k : Key)
  | lrange (k : Key) (start stop : Int)
  | lindex (k : Key) (idx : Int)
  | lset (k : Key) (idx : Int) (v : List Nat)
  | ltrim (k : Key) (start stop : Int)
  | brpop (k : Key) (timeout : Nat)
  | hset (k : Key) (field : Key) (v : List Nat)
  | hget (k : Key) (field : Key)
  | hdel (k : Key) (fields : List Key)
  | hgetall (k : Key)
  | hmget (k : Key) (fields : List Key)
  | hexists (k : Key) (field : Key)
  | hlen (k : Key)
  | hkeys (k : Key)
  | hvals (k : Key)
  | sadd (k : Key) (ms : List (List Nat))
  | srem (k : Key) (ms : List (List Nat))
  | smembers (k : Key)
  | sismember (k : Key) (m : List Nat)
  | scard (k : Key)
  | sunion (ks : List Key)
  | sinter (ks : List Key)
  | sdiff (ks : List Key)
  | zadd (k : Key) (score : F64) (m : List Nat)
  | zrem (k : Key) (m : List Nat)
  | zrange (k : Key) (start stop : Int)
  | zrevrange (k : Key) (start stop : Int)
  | zcard (k : Key)
  | zscore (k : Key) (m : List Nat)
  | zrangebyscore (k : Key) (mn mx : F64)
  | zremrangebyscore (k : Key) (mn mx : F64)
  | zrank (k : Key) (m : List Nat)
  | zrevrank (k : Key) (m : List Nat)
  | zcount (k : Key) (mn mx : F64)

def FrameList.toList : FrameList → List Frame
  | .nil => []
  | .cons f fs => f :: fs.toList

/-- `frame_to_string`: `Bulk` bytes through `from_utf8_lossy`, `Simple`
verbatim (already a `String` in Rust). -/
def frame_to_string (f : Frame) : Except RedisError Key :=
  match f with
  | .bulk b => .ok (utf8Lossy b)
  | .simple s => .ok s
  | _ => .error (.other "expected bulk or simple string")

/-- `frame_to_bytes`: `Bulk` bytes verbatim, `Simple` as its bytes. -/
def frame_to_bytes (f : Frame) : Except RedisError (List Nat) :=
  match f with
  | .bulk b => .ok b
  | .simple s => .ok s
  | _ => .error (.other "expected bulk or simple string")

/-- The `arr[1..]` collection loops mapping `frame_to_string`. -/
def framesToStrings : List Frame → Except RedisError (List Key)
  | [] => .ok []
  | f :: fs => do
    let s ← frame_to_string f
    let rest ← framesToStrings fs
    .ok (s :: rest)

/-- The `arr[1..]` collection loops mapping `frame_to_bytes`. -/
def framesToBytes : List Frame → Except RedisError (List (List Nat))
  | [] => .ok []
  | f :: fs => do
    let b ← frame_to_bytes f
    let rest ← framesToBytes fs
    .ok (b :: rest)

/-- The MSET `chunks(2)` loop; the odd-tail arm is unreachable because the
caller has already checked the arity parity. -/
def framesToPairs : List Frame → Except RedisError (List (Key × List Nat))
  | [] => .ok []
  | kf :: vf :: rest => do
    let k ← frame_to_string kf
    let v ← frame_to_bytes vf
    let r ← framesToPairs rest
    .ok ((k, v) :: r)
  | [_] => .error (.other "MSET odd chunk")

/-- An integer argument parsed from a frame:
`frame_to_string(..)?.parse::<i64>()` with the given error message. -/
def intArg (f : Frame) (msg : String) : Except RedisError Int := do
  let s ← frame_to_string f
  match parseI64 s with
  | some v => .ok v
  | none => .error (.other msg)

/-- A float argument parsed from a frame:
`frame_to_string(..)?.parse::<f64>()` with the given error message. -/
def floatArg (f : Frame) (msg : String) : Except RedisError F64 := do
  let s ← frame_to_string f
  match parseF64 s with
  | some v => .ok v
  | none => .error (.other msg)

/-- The big dispatch of `Command::try_from` once the uppercased command
name is known; `arr` is the whole frame list (name included), as in the
source, so the arity tests and `arr[1..]`/`arr[2..]` slices carry over
verbatim. -/
def tryFromNamed (name : List Nat) (arr : List Frame) : Except RedisError Command :=
  if name = ascii "PING" then .ok .ping
  else if name = ascii "EXPIRE" then
    match arr with
    | [_, kf, sf] => do
      let k ← frame_to_string kf
      let ss ← frame_to_string sf
      match parseUsize ss with
      | some secs => .ok (.expire k secs)
      | none => .error (.other "ERR value is not an integer")
    | _ => .error (.other "ERR wrong number of arguments for 'EXPIRE'")
  else if name = ascii "TTL" then
    match arr with
    | [_, kf] => do
      let k ← frame_to_string kf
      .ok (.ttl k)
    | _ => .error (.other "ERR wrong number of arguments for 'TTL'")
  else if name = ascii "GET" then
    match arr with
    | [_, kf] => do
      let k ← frame_to_string kf
      .ok (.get k)
    | _ => .error (.other "ERR wrong number of arguments for 'GET'")
  else if name = ascii "SET" then
    match arr with
    | [_, kf, vf] => do
      let k ← frame_to_string kf
      let v ← frame_to_bytes vf
      .ok (.set k v)
    | _ => .error (.other "ERR wrong number of arguments for 'SET'")
  else if name = ascii "DEL" then
    match arr with
    | [_, kf] => do
      let k ← frame_to_string kf
      .ok (.del k)
    | _ => .error (.other "ERR wrong number of arguments for 'DEL'")
  else if name = ascii "APPEND" then
    match arr with
    | [_, kf, vf] => do
      let k ← frame_to_string kf
      let v ← frame_to_bytes vf
      .ok (.append k v)
    | _ => .error (.other "ERR wrong number of arguments for 'APPEND'")
  else if name = ascii "STRLEN" then
    match arr with
    | [_, kf] => do
      let k ← frame_to_string kf
      .ok (.strlen k)
    | _ => .error (.other "ERR wrong number of arguments for 'STRLEN'")
  else if name = ascii "GETSET" then
    match arr with
    | [_, kf, vf] => do
      let k ← frame_to_string kf
      let v ← frame_to_bytes vf
      .ok (.getset k v)
    | _ => .error (.other "ERR wrong number of arguments for 'GETSET'")
  else if name = ascii "INCR" then
    match arr with
    | [_, kf] => do
      let k ← frame_to_string kf
      .ok (.incr k)
    | _ => .error (.other "ERR wrong number of arguments for 'INCR'")
  else if name = ascii "INCRBY" then
    match arr with
    | [_, kf, af] => do
      let k ← frame_to_string kf
      let amt ← intArg af "ERR value is not an integer"
      .ok (.incrby k amt)
    | _ => .error (.other "ERR wrong number of arguments for 'INCRBY'")
  else if name = ascii "MSET" then
    if arr.length < 3 ∨ arr.length % 2 = 0 then
      .error (.other "ERR wrong number of arguments for 'MSET'")
    else do
      let kvs ← framesToPairs (arr.drop 1)
      .ok (.mset kvs)
  else if name = ascii "MGET" then
    if arr.length < 2 then .error (.other "ERR wrong number of arguments for 'MGET'")
    else do
      let ks ← framesToStrings (arr.drop 1)
      .ok (.mget ks)
  else if name = ascii "LPUSH" then
    if arr.length < 3 then .error (.other "ERR wrong number of arguments for 'LPUSH'")
    else
      match arr with
      | _ :: kf :: vfs => do
        let k ← frame_to_string kf
        let vs ← framesToBytes vfs
        .ok (.lpush k vs)
      | _ => .error (.other "ERR wrong number of arguments for 'LPUSH'")
  else if name = ascii "LPOP" then
    match arr with
    | [_, kf] => do
      let k ← frame_to_string kf
      .ok (.lpop k)
    | _ => .error (.other "ERR wrong number of arguments for 'LPOP'")
  else if name = ascii "RPUSH" then
    if arr.length < 3 then .error (.other "ERR wrong number of arguments for 'RPUSH'")
    else
      match arr with
      | _ :: kf :: vfs => do
        let k ← frame_to_string kf
        let vs ← framesToBytes vfs
        .ok (.rpush k vs)
      | _ => .error (.other "ERR wrong number of arguments for 'RPUSH'")
  else if name = ascii "RPOP" then
    match arr with
    | [_, kf] => do
      let k ← frame_to_string kf
      .ok (.rpop k)
    | _ => .error (.other "ERR wrong number of arguments for 'RPOP'")
  else if name = ascii "LLEN" then
    match arr with
    | [_, kf] => do
      let k ← frame_to_string kf
      .ok (.llen k)
    | _ => .error (.other "ERR wrong number of arguments for 'LLEN'")
  else if name = ascii "LRANGE" then
    match arr with
    | [_, kf, sf, ef] => do
      let k ← frame_to_string kf
      let a ← intArg sf "ERR value is not an integer"
      let b ← intArg ef "ERR value is not an integer"
      .ok (.lrange k a b)
    | _ => .error (.other "ERR wrong number of arguments for 'LRANGE'")
  else if name = ascii "LINDEX" then
    match arr with
    | [_, kf, xf] => do
      let k ← frame_to_string kf
      let idx ← intArg xf "ERR value is not an integer"
      .ok (.lindex k idx)
    | _ => .error (.other "ERR wrong number of arguments for 'LINDEX'")
  else if name = ascii "LSET" then
    match arr with
    | [_, kf, xf, vf] => do
      let k ← frame_to_string kf
      let idx ← intArg xf "ERR value is not an integer"
      let v ← frame_to_bytes vf
      .ok (.lset k idx v)
    | _ => .error (.other "ERR wrong number of arguments for 'LSET'")
  else if name = ascii "LTRIM" then
    match arr with
    | [_, kf, sf, ef] => do
      let k ← frame_to_string kf
      let a ← intArg sf "ERR value is not an integer"
      let b ← intArg ef "ERR value is not an integer"
      .ok (.ltrim k a b)
    | _ => .error (.other "ERR wrong number of arguments for 'LTRIM'")
  else if name = ascii "BRPOP" then
    match arr with
    | [_, kf, tf] => do
      let k ← frame_to_string kf
      let ts ← frame_to_string tf
      match parseUsize ts with
      | some t => .ok (.brpop k t)
      | none => .error (.other "ERR timeout must be integer")
    | _ => .error (.other "ERR wrong number of arguments for 'BRPOP'")
  else if name = ascii "HSET" then
    match arr with
    | [_, kf, ff, vf] => do
      let k ← frame_to_string kf
      let fd ← frame_to_string ff
      let v ← frame_to_bytes vf
      .ok (.hset k fd v)
    | _ => .error (.other "ERR wrong number of arguments for 'HSET'")
  else if name = ascii "HGET" then
    match arr with
    | [_, kf, ff] => do
      let k ← frame_to_string kf
      let fd ← frame_to_string ff
      .ok (.hget k fd)
    | _ => .error (.other "ERR wrong number of arguments for 'HGET'")
  else if name = ascii "HDEL" then
    if arr.length < 3 then .error (.other "ERR wrong number of arguments for 'HDEL'")
    else
      match arr with
      | _ :: kf :: ffs => do
        let k ← frame_to_string kf
        let fds ← framesToStrings ffs
        .ok (.hdel k fds)
      | _ => .error (.other "ERR wrong number of arguments for 'HDEL'")
  else if name = ascii "HGETALL" then
    match arr with
    | [_, kf] => do
      let k ← frame_to_string kf
      .ok (.hgetall k)
    | _ => .error (.other "ERR wrong number of arguments for 'HGETALL'")
  else if name = ascii "HMGET" then
    if arr.length < 3 then .error (.other "ERR wrong number of arguments for 'HMGET'")
    else
      match arr with
      | _ :: kf :: ffs => do
        let k ← frame_to_string kf
        let fds ← framesToStrings ffs
        .ok (.hmget k fds)
      | _ => .error (.other "ERR wrong number of arguments for 'HMGET'")
  else if name = ascii "HEXISTS" then
    match arr with
    | [_, kf, ff] => do
      let k ← frame_to_string kf
      let fd ← frame_to_string ff
      .ok (.hexists k fd)
    | _ => .error (.other "ERR wrong number of arguments for 'HEXISTS'")
  else if name = ascii "HLEN" then
    match arr with
    | [_, kf] => do
      let k ← frame_to_string kf
      .ok (.hlen k)
    | _ => .error (.other "ERR wrong number of arguments for 'HLEN'")
  else if name = ascii "HKEYS" then
    match arr with
    | [_, kf] => do
      let k ← frame_to_string kf
      .ok (.hkeys k)
    | _ => .error (.other "ERR wrong number of arguments for 'HKEYS'")
  else if name = ascii "HVALS" then
    match arr with
    | [_, kf] => do
      let k ← frame_to_string kf
      .ok (.hvals k)
    | _ => .error (.other "ERR wrong number of arguments for 'HVALS'")
  else if name = ascii "SADD" then
    if arr.length < 3 then .error (.other "ERR wrong number of arguments for 'SADD'")
    else
      match arr with
      | _ :: kf :: mfs => do
        let k ← frame_to_string kf
        let ms ← framesToBytes mfs
        .ok (.sadd k ms)
      | _ => .error (.other "ERR wrong number of arguments for 'SADD'")
  else if name = ascii "SREM" then
    if arr.length < 3 then .error (.other "ERR wrong number of arguments for 'SREM'")
    else
      match arr with
      | _ :: kf :: mfs => do
        let k ← frame_to_string kf
        let ms ← framesToBytes mfs
        .ok (.srem k ms)
      | _ => .error (.other "ERR wrong number of arguments for 'SREM'")
  else if name = ascii "SMEMBERS" then
    match arr with
    | [_, kf] => do
      let k ← frame_to_string kf
      .ok (.smembers k)
    | _ => .error (.other "ERR wrong number of arguments for 'SMEMBERS'")
  else if name = ascii "SISMEMBER" then
    match arr with
    | [_, kf, mf] => do
      let k ← frame_to_string kf
      let m ← frame_to_bytes mf
      .ok (.sismember k m)
    | _ => .error (.other "ERR wrong number of arguments for 'SISMEMBER'")
  else if name = ascii "SCARD" then
    match arr with
    | [_, kf] => do
      let k ← frame_to_string kf
      .ok (.scard k)
    | _ => .error (.other "ERR wrong number of arguments for 'SCARD'")
  else if name = ascii "SUNION" then
    if arr.length < 2 then .error (.other "ERR wrong number of arguments for 'SUNION'")
    else do
      let ks ← framesToStrings (arr.drop 1)
      .ok (.sunion ks)
  else if name = ascii "SINTER" then
    if arr.length < 2 then .error (.other "ERR wrong number of arguments for 'SINTER'")
    else do
      let ks ← framesToStrings (arr.drop 1)
      .ok (.sinter ks)
  else if name = ascii "SDIFF" then
    if arr.length < 2 then .error (.other "ERR wrong number of arguments for 'SDIFF'")
    else do
      let ks ← framesToStrings (arr.drop 1)
      .ok (.sdiff ks)
  else if name = ascii "ZADD" then
    match arr with
    | [_, kf, sf, mf] => do
      let k ← frame_to_string kf
      let score ← floatArg sf "ERR score must be a float"
      let m ← frame_to_bytes mf
      .ok (.zadd k score m)
    | _ => .error (.other "ERR wrong number of arguments for 'ZADD'")
  else if name = ascii "ZREM" then
    match arr with
    | [_, kf, mf] => do
      let k ← frame_to_string kf
      let m ← frame_to_bytes mf
      .ok (.zrem k m)
    | _ => .error (.other "ERR wrong number of arguments for 'ZREM'")
  else if name = ascii "ZRANGE" then
    match arr with
    | [_, kf, sf, ef] => do
      let k ← frame_to_string kf
      let a ← intArg sf "ERR start must be an integer"
      let b ← intArg ef "ERR stop must be an integer"
      .ok (.zrange k a b)
    | _ => .error (.other "ERR wrong number of arguments for 'ZRANGE'")
  else if name = ascii "ZREVRANGE" then
    match arr with
    | [_, kf, sf, ef] => do
      let k ← frame_to_string kf
      let a ← intArg sf "ERR start must be an integer"
      let b ← intArg ef "ERR start must be an integer"
      .ok (.zrevrange k a b)
    | _ => .error (.other "ERR wrong number of arguments for 'ZREVRANGE'")
  else if name = ascii "ZCARD" then
    match arr with
    | [_, kf] => do
      let k ← frame_to_string kf
      .ok (.zcard k)
    | _ => .error (.other "ERR wrong number of arguments for 'ZCARD'")
  else if name = ascii "ZSCORE" then
    match arr with
    | [_, kf, mf] => do
      let k ← frame_to_string kf
      let m ← frame_to_bytes mf
      .ok (.zscore k m)
    | _ => .error (.other "ERR wrong number of arguments for 'ZSCORE'")
  else if name = ascii "ZRANGEBYSCORE" then
    match arr with
    | [_, kf, mnf, mxf] => do
      let k ← frame_to_string kf
      let mn ← floatArg mnf "ERR min must be a float"
      let mx ← floatArg mxf "ERR max must be a float"
      .ok (.zrangebyscore k mn mx)
    | _ => .error (.other "ERR wrong number of arguments for 'ZRANGEBYSCORE'")
  else if name = ascii "ZREMRANGEBYSCORE" then
    match arr with
    | [_, kf, mnf, mxf] => do
      let k ← frame_to_string kf
      let mn ← floatArg mnf "ERR min must be a float"
      let mx ← floatArg mxf "ERR max must be a float"
      .ok (.zremrangebyscore k mn mx)
    | _ => .error (.other "ERR wrong number of arguments for 'ZREMRANGEBYSCORE'")
  else if name = ascii "ZRANK" then
    match arr with
    | [_, kf, mf] => do
      let k ← frame_to_string kf
      let m ← frame_to_bytes mf
      .ok (.zrank k m)
    | _ => .error (.other "ERR wrong number of arguments for 'ZRANK'")
  else if name = ascii "ZREVRANK" then
    match arr with
    | [_, kf, mf] => do
      let k ← frame_to_string kf
      let m ← frame_to_bytes mf
      .ok (.zrevrank k m)
    | _ => .error (.other "ERR wrong number of arguments for 'ZREVRANK'")
  else if name = ascii "ZCOUNT" then
    match arr with
    | [_, kf, mnf, mxf] => do
      let k ← frame_to_string kf
      let mn ← floatArg mnf "ERR start must be a float"
      let mx ← floatArg mxf "ERR start must be a float"
      .ok (.zcount k mn mx)
    | _ => .error (.other "ERR wrong number of arguments for 'ZCOUNT'")
  else .error .unknownCommand

/-- `Command::try_from(Frame)`: an `Array` frame whose first element names
the command (case-insensitive); everything else is an error. -/
def tryFromCommand (frame : Frame) : Except RedisError Command :=
  match frame with
  | .array a =>
    match a.toList with
    | [] => .error (.other "empty command")
    | c0 :: rest =>
      match c0 with
      | .bulk b => tryFromNamed (asciiUpper (utf8Lossy b)) (c0 :: rest)
      | .simple s => tryFromNamed (asciiUpper s) (c0 :: rest)
      | _ => .error (.other "invalid command name")
  | _ => .error (.other "expected array frame")

/-! ## Claim C4 -/

/-- Counterexample to C4: `Command::try_from` on
`["ZADD", "k", "nan", "m"]` does NOT return an error — the score goes
through Rust `str::parse::<f64>()`, which accepts `"nan"`, so a
`Command::ZAdd` with a NaN score IS produced. -/
theorem c4_zadd_nan_accepted :
    tryFromCommand (.array (.cons (.bulk (ascii "ZADD")) (.cons (.bulk (ascii "k"))
      (.cons (.bulk (ascii "nan")) (.cons (.bulk (ascii "m")) .nil))))) =
    .ok (.zadd (ascii "k") .nan (ascii "m")) := rfl

/-- C4 amended: for every key and member, a ZADD whose score argument is
the bulk string `"nan"` is ACCEPTED by the command layer, yielding
`Command::ZAdd` with score NaN; the "score must be a float" error is
raised only for strings `parse::<f64>()` rejects, e.g. `"abc"`. -/
theorem c4_zadd_nan_not_rejected (k m : List Nat) :
    tryFromCommand (.array (.cons (.bulk (ascii "ZADD")) (.cons (.bulk k)
      (.cons (.bulk (ascii "nan")) (.cons (.bulk m) .nil))))) =
      .ok (.zadd (utf8Lossy k) .nan m) ∧
    tryFromCommand (.array (.cons (.bulk (ascii "ZADD")) (.cons (.bulk k)
      (.cons (.bulk (ascii "abc")) (.cons (.bulk m) .nil))))) =
      .error (.other "ERR score must be a float") := ⟨rfl, rfl⟩

/-! ## Skip list (`src/skiplist.rs`)

The source stores nodes in `Arc<Mutex<Node>>` cells; we model the heap as
an arena (list of nodes) in which a `NodeRef` is an index, `Arc::ptr_eq`
is index equality, and mutation is index update.  Nodes are pushed and
never re-indexed, so index identity is pointer identity.  The element
type is kept generic: the source fixes `σ = f64` with
`compare = partial_cmp(..).unwrap_or(Equal)` (`f64Cmp` below). -/

/-- `Node`: score, member bytes, and one forward pointer per level
(`levels[lvl].forward`), `none` for a null pointer. -/
structure SLNode (σ : Type) where
  score : σ
  member : List Nat
  forward : List (Option Nat)

abbrev Arena (σ : Type) := List (SLNode σ)

/-- `MAX_LEVEL` from the source. -/
def MAX_LEVEL : Nat := 16

/-- List indexing (structural, kernel-reducible). -/
def nth {α : Type} : List α → Nat → Option α
  | [], _ => none
  | x :: _, 0 => some x
  | _ :: xs, n + 1 => nth xs n

/-- List update; out-of-range is the identity. -/
def setNth {α : Type} : List α → Nat → α → List α
  | [], _, _ => []
  | _ :: xs, 0, v => v :: xs
  | x :: xs, n + 1, v => x :: setNth xs n v

/-- `node.levels[lvl].forward` read through the arena; dangling reads
give `none` (unreachable under well-formedness). -/
def fwd {σ : Type} (a : Arena σ) (i lvl : Nat) : Option Nat :=
  match nth a i with
  | some nd =>
    match nth nd.forward lvl with
    | some p => p
    | none => none
  | none => none

/-- `node.levels[lvl].forward = v` as an arena update. -/
def setFwd {σ : Type} (a : Arena σ) (i lvl : Nat) (v : Option Nat) : Arena σ :=
  match nth a i with
  | some nd => setNth a i { nd with forward := setNth nd.forward lvl v }
  | none => a

/-- The member bytes stored at index `i`. -/
def memberAt {σ : Type} (a : Arena σ) (i : Nat) : Option (List Nat) :=
  (nth a i).map SLNode.member

/-- The score stored at index `i`. -/
def scoreAt {σ : Type} (a : Arena σ) (i : Nat) : Option σ :=
  (nth a i).map SLNode.score

/-- `levels.len()` of the node at index `i` (0 when dangling). -/
def fwdLenD {σ : Type} (a : Arena σ) (i : Nat) : Nat :=
  match nth a i with
  | some nd => nd.forward.length
  | none => 0

/-- `Vec<u8>` comparison (`a_member.cmp(b_member)`): lexicographic on
bytes, shorter-is-less on exhaustion. -/
def bytesCmp : List Nat → List Nat → Ordering
  | [], [] => .eq
  | [], _ :: _ => .lt
  | _ :: _, [] => .gt
  | x :: xs, y :: ys =>
    if x < y then .lt else if y < x then .gt else bytesCmp xs ys

/-- `SkipList::compare`: score order first (for `f64` this is
`partial_cmp(..).unwrap_or(Equal)`), then member bytes. -/
def compareSL {σ : Type} (cmp : σ → σ → Ordering) (as' : σ) (am : List Nat)
    (bs : σ) (bm : List Nat) : Ordering :=
  match cmp as' bs with
  | .lt => .lt
  | .gt => .gt
  | .eq => bytesCmp am bm

/-- The `SkipList` struct: heap arena plus the three fields of the
source; `head` is the sentinel at index 0. -/
structure SkipList (σ : Type) where
  arena : Arena σ
  level : Nat
  length : Nat

/-- `SkipList::new()` for a given sentinel score (the source uses
`f64::NEG_INFINITY`): head with `MAX_LEVEL` null forwards, level 1,
length 0. -/
def SkipList.new {σ : Type} (sentinel : σ) : SkipList σ :=
  { arena := [⟨sentinel, [], List.replicate MAX_LEVEL none⟩], level := 1, length := 0 }

/-- The inner `loop` of the search in `insert` (and `range_by_score`):
advance along level `lvl` while the next node compares `Less` than the
probe.  Fuel bounds the walk; it is instantiated with the arena size,
which the chain length never exceeds. -/
def walkGo {σ : Type} (cmp : σ → σ → Ordering) (a : Arena σ) (score : σ)
    (member : List Nat) (lvl : Nat) : Nat → Nat → Nat
  | _, 0 => 0
  | cur, fuel + 1 =>
    match fwd a cur lvl with
    | none => cur
    | some j =>
      match nth a j with
      | none => cur
      | some nd =>
        if compareSL cmp nd.score nd.member score member = .lt then
          walkGo cmp a score member lvl j fuel
        else cur

/-- The `for lvl in (0..self.level).rev()` search loop of `insert`:
`searchGo cmp a score member lvl cur` processes levels `lvl-1` down to
`0` starting from node `cur` and returns the `update` vector restricted
to those levels (index `l` = node recorded for level `l`). -/
def searchGo {σ : Type} (cmp : σ → σ → Ordering) (a : Arena σ) (score : σ)
    (member : List Nat) : Nat → Nat → List Nat
  | 0, _ => []
  | lvl + 1, cur =>
    searchGo cmp a score member lvl (walkGo cmp a score member lvl cur a.length) ++
      [walkGo cmp a score member lvl cur a.length]

/-- The level-0 scan of `remove_member` locating the node whose member
equals the probe. -/
def findMemberGo {σ : Type} (a : Arena σ) (member : List Nat) :
    Nat → Option Nat → Option Nat
  | 0, _ => none
  | _, none => none
  | fuel + 1, some i =>
    match nth a i with
    | none => none
    | some nd =>
      if nd.member = member then some i
      else findMemberGo a member fuel (fwd a i 0)

/-- `remove_member`'s scan starts from `head.levels[0].forward`. -/
def findMember {σ : Type} (a : Arena σ) (member : List Nat) : Option Nat :=
  findMemberGo a member a.length (fwd a 0 0)

/-- The unlink `loop` at one level of `remove_member`: walk from `cur`
along level `lvl` until the next node is (pointer-)equal to `target`,
then bypass it; stop at the chain end otherwise. -/
def unlinkGo {σ : Type} (a : Arena σ) (target lvl : Nat) : Nat → Nat → Arena σ
  | 0, _ => a
  | fuel + 1, cur =>
    match fwd a cur lvl with
    | none => a
    | some j =>
      if j = target then setFwd a cur lvl (fwd a j lvl)
      else unlinkGo a target lvl fuel j

/-- `for lvl in (0..self.level).rev()` of `remove_member`: unlink
`target` at levels `lvl-1` down to `0`. -/
def unlinkLevels {σ : Type} (a : Arena σ) (target : Nat) : Nat → Arena σ
  | 0 => a
  | lvl + 1 => unlinkLevels (unlinkGo a target lvl a.length 0) target lvl

/-- The shrink loop of `remove_member`: `while level > 1 &&
head.levels[level-1].forward.is_none() { level -= 1 }` (fuel: the level
itself, which strictly decreases). -/
def shrinkGo {σ : Type} (a : Arena σ) : Nat → Nat → Nat
  | 0, lvl => lvl
  | fuel + 1, lvl =>
    if 1 < lvl ∧ fwd a 0 (lvl - 1) = none then shrinkGo a fuel (lvl - 1)
    else lvl

/-- `SkipList::remove_member`: locate by level-0 scan; if absent return
unchanged with `false`; else unlink at every level, decrement `length`,
shrink `level`. -/
def SkipList.removeMember {σ : Type} (sl : SkipList σ) (member : List Nat) :
    SkipList σ × Bool :=
  match findMember sl.arena member with
  | none => (sl, false)
  | some t =>
    let a := unlinkLevels sl.arena t sl.level
    ({ arena := a, level := shrinkGo a sl.level sl.level, length := sl.length - 1 }, true)

/-- `random_level()` always lands in `[1, MAX_LEVEL]`; the model takes
the sampled level as an input and clamps it to that interval. -/
def clampLvl (l : Nat) : Nat := min (max l 1) MAX_LEVEL

/-- The splice loop of `insert` (`for lvl in 0..new_level`): link the
new node `ni` in after `update[lvl]` at each level, in ascending level
order as in the source. -/
def spliceUpTo {σ : Type} (a : Arena σ) (upd : List Nat) (ni : Nat) : Nat → Arena σ
  | 0 => a
  | l + 1 =>
    let a' := spliceUpTo a upd ni l
    let u := (nth upd l).getD 0
    setFwd (setFwd a' ni l (fwd a' u l)) u l (some ni)

/-- `SkipList::insert`: remove any node with this member, search to
build `update` (entries above the pre-insert level are the head, as in
the source's initialisation), push the new node, splice at levels
`0..new_level`, and bump `level` and `length`.  `rl` is the value
returned by `random_level()`. -/
def SkipList.insert {σ : Type} (cmp : σ → σ → Ordering) (rl : Nat)
    (sl : SkipList σ) (score : σ) (member : List Nat) : SkipList σ :=
  let sl1 := (sl.removeMember member).1
  let upd0 := searchGo cmp sl1.arena score member sl1.level 0
  let new_level := clampLvl rl
  let upd := upd0 ++ List.replicate (MAX_LEVEL - sl1.level) 0
  let ni := sl1.arena.length
  let a0 := sl1.arena ++ [⟨score, member, List.replicate new_level none⟩]
  let a1 := spliceUpTo a0 upd ni new_level
  { arena := a1, level := max sl1.level new_level, length := sl1.length + 1 }

/-- Modelled from the spec: `get_score(member)` is "Lookup by equality
on member" — a linear level-0 scan (the function is called from
`Db::zscore` but its body is not among the sources); returns the stored
score of the first node carrying this member. -/
def getScoreGo {σ : Type} (a : Arena σ) (member : List Nat) :
    Nat → Option Nat → Option σ
  | 0, _ => none
  | _, none => none
  | fuel + 1, some i =>
    match nth a i with
    | none => none
    | some nd =>
      if nd.member = member then some nd.score
      else getScoreGo a member fuel (fwd a i 0)

/-- Modelled from the spec: `get_score` entry point, scanning from
`head.levels[0].forward`. -/
def SkipList.getScore {σ : Type} (sl : SkipList σ) (member : List Nat) : Option σ :=
  getScoreGo sl.arena member sl.arena.length (fwd sl.arena 0 0)

/-! ### Chains and well-formedness -/

/-- The level-`lvl` chain from pointer `o`: the sequence of node indices
reached by following `forward[lvl]`, ending at a null pointer.  All
indices are in range. -/
inductive ChainL {σ : Type} (a : Arena σ) (lvl : Nat) : Option Nat → List Nat → Prop where
  | nil : ChainL a lvl none []
  | cons {i : Nat} {c : List Nat} (hlt : i < a.length)
      (htail : ChainL a lvl (fwd a i lvl) c) : ChainL a lvl (some i) (i :: c)

/-- Fueled chain collector (executable mirror of `ChainL`). -/
def chainF {σ : Type} (a : Arena σ) (lvl : Nat) : Nat → Option Nat → List Nat
  | 0, _ => []
  | _, none => []
  | fuel + 1, some i => i :: chainF a lvl fuel (fwd a i lvl)

/-- Fueled chain termination checker: `true` iff the walk reaches a null
pointer within the fuel. -/
def chainT {σ : Type} (a : Arena σ) (lvl : Nat) : Nat → Option Nat → Bool
  | 0, none => true
  | 0, some _ => false
  | _ + 1, none => true
  | fuel + 1, some i => chainT a lvl fuel (fwd a i lvl)

/-- The head chain of `sl` at level `lvl`, computed with arena-size fuel. -/
def SkipList.chainAt {σ : Type} (sl : SkipList σ) (lvl : Nat) : List Nat :=
  chainF sl.arena lvl sl.arena.length (fwd sl.arena 0 lvl)

/-- The members along a chain. -/
def memsOf {σ : Type} (a : Arena σ) (c : List Nat) : List (List Nat) :=
  c.filterMap (memberAt a)

/-- Well-formedness of one level: the walk from the head terminates, its
indices are in range, `0 :: chain` has no duplicate indices, every node
on it has a forward slot at this level, and (above level 0) the chain's
nodes all appear in the chain one level down. -/
def wfLvl {σ : Type} (sl : SkipList σ) (lvl : Nat) : Bool :=
  let a := sl.arena
  let c := sl.chainAt lvl
  chainT a lvl a.length (fwd a 0 lvl) &&
  c.all (fun i => decide (i < a.length)) &&
  decide ((0 :: c).Nodup) &&
  (0 :: c).all (fun i => decide (lvl < fwdLenD a i)) &&
  (decide (lvl = 0) || c.all (fun i => decide (i ∈ sl.chainAt (lvl - 1))))

def wfLvls {σ : Type} (sl : SkipList σ) : Nat → Bool
  | 0 => wfLvl sl 0
  | l + 1 => wfLvl sl (l + 1) && wfLvls sl l

/-- Executable well-formedness of a skip list: nonempty arena whose head
has `MAX_LEVEL` forward slots, level in `[1, MAX_LEVEL]`, all 16 level
chains well-formed, `length` equal to the level-0 chain length, and no
two nodes on the level-0 chain sharing a member. -/
def SkipList.wf {σ : Type} (sl : SkipList σ) : Bool :=
  decide (0 < sl.arena.length) &&
  decide (fwdLenD sl.arena 0 = MAX_LEVEL) &&
  decide (1 ≤ sl.level) && decide (sl.level ≤ MAX_LEVEL) &&
  wfLvls sl (MAX_LEVEL - 1) &&
  decide (sl.length = (sl.chainAt 0).length) &&
  decide ((memsOf sl.arena (sl.chainAt 0)).Nodup)

/-! ### Arena primitive lemmas -/

theorem nth_some_lt {α : Type} {l : List α} {i : Nat} {x : α}
    (h : nth l i = some x) : i < l.length := by
  induction l generalizing i with
  | nil => simp [nth] at h
  | cons y ys ih =>
    cases i with
    | zero => simp
    | succ n => exact Nat.succ_lt_succ (ih h)

theorem nth_lt {α : Type} {l : List α} {i : Nat} (h : i < l.length) :
    ∃ x, nth l i = some x := by
  induction l generalizing i with
  | nil => simp at h
  | cons y ys ih =>
    cases i with
    | zero => exact ⟨y, rfl⟩
    | succ n => exact ih (Nat.lt_of_succ_lt_succ h)

theorem length_setNth {α : Type} (l : List α) (n : Nat) (v : α) :
    (setNth l n v).length = l.length := by
  induction l generalizing n with
  | nil => rfl
  | cons y ys ih =>
    cases n with
    | zero => rfl
    | succ m => simpa [setNth] using ih m

theorem nth_setNth_self {α : Type} {l : List α} {n : Nat} (h : n < l.length) (v : α) :
    nth (setNth l n v) n = some v := by
  induction l generalizing n with
  | nil => simp at h
  | cons y ys ih =>
    cases n with
    | zero => rfl
    | succ m => exact ih (Nat.lt_of_succ_lt_succ h)

theorem nth_setNth_ne {α : Type} (l : List α) {m n : Nat} (h : m ≠ n) (v : α) :
    nth (setNth l n v) m = nth l m := by
  induction l generalizing m n with
  | nil => rfl
  | cons y ys ih =>
    cases n with
    | zero =>
      cases m with
      | zero => exact absurd rfl h
      | succ k => rfl
    | succ n' =>
      cases m with
      | zero => rfl
      | succ k => exact ih (fun hc => h (by simpa using hc))

theorem length_setFwd {σ : Type} (a : Arena σ) (i lvl : Nat) (v : Option Nat) :
    (setFwd a i lvl v).length = a.length := by
  unfold setFwd
  cases h : nth a i with
  | none => rfl
  | some nd => exact length_setNth a i _

theorem memberAt_setFwd {σ : Type} (a : Arena σ) (i lvl : Nat) (v : Option Nat)
    (j : Nat) : memberAt (setFwd a i lvl v) j = memberAt a j := by
  unfold setFwd memberAt
  cases h : nth a i with
  | none => rfl
  | some nd =>
    by_cases hji : j = i
    · subst hji
      rw [nth_setNth_self (nth_some_lt h), h]
      rfl
    · rw [nth_setNth_ne a hji]

theorem scoreAt_setFwd {σ : Type} (a : Arena σ) (i lvl : Nat) (v : Option Nat)
    (j : Nat) : scoreAt (setFwd a i lvl v) j = scoreAt a j := by
  unfold setFwd scoreAt
  cases h : nth a i with
  | none => rfl
  | some nd =>
    by_cases hji : j = i
    · subst hji
      rw [nth_setNth_self (nth_some_lt h), h]
      rfl
    · rw [nth_setNth_ne a hji]

theorem fwdLenD_setFwd {σ : Type} (a : Arena σ) (i lvl : Nat) (v : Option Nat)
    (j : Nat) : fwdLenD (setFwd a i lvl v) j = fwdLenD a j := by
  unfold setFwd fwdLenD
  cases h : nth a i with
  | none => rfl
  | some nd =>
    by_cases hji : j = i
    · subst hji
      rw [nth_setNth_self (nth_some_lt h), h]
      simp [length_setNth]
    · rw [nth_setNth_ne a hji]

theorem fwd_setFwd_ne_node {σ : Type} (a : Arena σ) {i j : Nat} (lvl l' : Nat)
    (v : Option Nat) (h : j ≠ i) : fwd (setFwd a i lvl v) j l' = fwd a j l' := by
  unfold setFwd fwd
  cases hi : nth a i with
  | none => rfl
  | some nd => rw [nth_setNth_ne a h]

theorem fwd_setFwd_ne_lvl {σ : Type} (a : Arena σ) (i : Nat) {lvl l' : Nat}
    (j : Nat) (v : Option Nat) (h : l' ≠ lvl) :
    fwd (setFwd a i lvl v) j l' = fwd a j l' := by
  unfold setFwd fwd
  cases hi : nth a i with
  | none => rfl
  | some nd =>
    by_cases hji : j = i
    · subst hji
      rw [nth_setNth_self (nth_some_lt hi), hi]
      simp only
      rw [nth_setNth_ne nd.forward h]
    · rw [nth_setNth_ne a hji]

theorem fwd_setFwd_self {σ : Type} (a : Arena σ) {i lvl : Nat} (v : Option Nat)
    (hcap : lvl < fwdLenD a i) : fwd (setFwd a i lvl v) i lvl = v := by
  unfold fwdLenD at hcap
  unfold setFwd fwd
  cases hi : nth a i with
  | none => rw [hi] at hcap; simp at hcap
  | some nd =>
    rw [hi] at hcap
    rw [nth_setNth_self (nth_some_lt hi)]
    simp only
    rw [nth_setNth_self hcap]

/-! ### Chain lemmas -/

/-- The forward pointer that a chain starts with. -/
def nextOpt : List Nat → Option Nat
  | [] => none
  | x :: _ => some x

theorem chainL_head {σ : Type} {a : Arena σ} {lvl : Nat} {o : Option Nat}
    {c : List Nat} (h : ChainL a lvl o c) : o = nextOpt c := by
  cases h with
  | nil => rfl
  | cons hlt htail => rfl

theorem chainL_lt {σ : Type} {a : Arena σ} {lvl : Nat} {o : Option Nat}
    {c : List Nat} (h : ChainL a lvl o c) : ∀ i ∈ c, i < a.length := by
  induction h with
  | nil => intro i hi; simp at hi
  | cons hlt htail ih =>
    intro j hj
    rcases List.mem_cons.mp hj with h1 | h2
    · exact h1 ▸ hlt
    · exact ih j h2

theorem chainL_unique {σ : Type} {a : Arena σ} {lvl : Nat} {o : Option Nat}
    {c c' : List Nat} (h : ChainL a lvl o c) (h' : ChainL a lvl o c') : c = c' := by
  induction h generalizing c' with
  | nil => cases h'; rfl
  | cons hlt htail ih =>
    cases h' with
    | cons hlt' htail' => exact congrArg _ (ih htail')

theorem chainF_eq_of_chainL {σ : Type} {a : Arena σ} {lvl : Nat} {o : Option Nat}
    {c : List Nat} (h : ChainL a lvl o c) :
    ∀ {fuel : Nat}, c.length ≤ fuel → chainF a lvl fuel o = c := by
  induction h with
  | nil =>
    intro fuel _
    cases fuel <;> rfl
  | cons hlt htail ih =>
    intro fuel hf
    cases fuel with
    | zero => simp at hf
    | succ n => exact congrArg _ (ih (Nat.le_of_succ_le_succ hf))

theorem chainT_of_chainL {σ : Type} {a : Arena σ} {lvl : Nat} {o : Option Nat}
    {c : List Nat} (h : ChainL a lvl o c) :
    ∀ {fuel : Nat}, c.length ≤ fuel → chainT a lvl fuel o = true := by
  induction h with
  | nil =>
    intro fuel _
    cases fuel <;> rfl
  | cons hlt htail ih =>
    intro fuel hf
    cases fuel with
    | zero => simp at hf
    | succ n => exact ih (Nat.le_of_succ_le_succ hf)

theorem chainL_of_chainT {σ : Type} (a : Arena σ) (lvl : Nat) :
    ∀ (fuel : Nat) (o : Option Nat), chainT a lvl fuel o = true →
    (∀ i ∈ chainF a lvl fuel o, i < a.length) →
    ChainL a lvl o (chainF a lvl fuel o) := by
  intro fuel
  induction fuel with
  | zero =>
    intro o ht _
    cases o with
    | none => exact .nil
    | some i => simp [chainT] at ht
  | succ n ih =>
    intro o ht hv
    cases o with
    | none => exact .nil
    | some i =>
      have hi : i < a.length := hv i (by simp [chainF])
      exact .cons hi (ih (fwd a i lvl) ht
        (fun j hj => hv j (by simp [chainF, hj])))

theorem chainL_mono {σ : Type} {a a' : Arena σ} {lvl : Nat}
    (hlen : a.length ≤ a'.length)
    {o : Option Nat} {c : List Nat}
    (hf : ∀ i ∈ c, fwd a' i lvl = fwd a i lvl)
    (h : ChainL a lvl o c) : ChainL a' lvl o c := by
  induction h with
  | nil => exact .nil
  | cons hlt htail ih =>
    refine .cons (Nat.lt_of_lt_of_le hlt hlen) ?_
    rw [hf _ (List.mem_cons_self _ _)]
    exact ih (fun j hj => hf j (List.mem_cons_of_mem _ hj))

theorem chainL_suffix {σ : Type} {a : Arena σ} {lvl : Nat} {o : Option Nat}
    {p : List Nat} {x : Nat} {s : List Nat}
    (h : ChainL a lvl o (p ++ x :: s)) : ChainL a lvl (some x) (x :: s) := by
  induction p generalizing o with
  | nil =>
    cases h with
    | cons hlt htail => exact .cons hlt htail
  | cons y ys ih =>
    cases h with
    | cons hlt htail => exact ih htail

theorem chainL_fwd_mid {σ : Type} {a : Arena σ} {lvl : Nat} {o : Option Nat}
    {p : List Nat} {x : Nat} {s : List Nat}
    (h : ChainL a lvl o (p ++ x :: s)) : fwd a x lvl = nextOpt s := by
  cases chainL_suffix h with
  | cons hlt htail => exact chainL_head htail

theorem nodup_length_le {c : List Nat} {n : Nat} (hnd : c.Nodup)
    (hlt : ∀ i ∈ c, i < n) : c.length ≤ n := by
  classical
  have h1 : c.toFinset.card = c.length := List.toFinset_card_of_nodup hnd
  have h2 : c.toFinset ⊆ Finset.range n := by
    intro x hx
    exact Finset.mem_range.mpr (hlt x (List.mem_toFinset.mp hx))
  have := Finset.card_le_card h2
  rw [h1, Finset.card_range] at this
  exact this

/-! ### Skeleton preservation -/

/-- Arena operations that only rewrite forward pointers keep the length
and every node's score, member and level count. -/
def Pres {σ : Type} (a a' : Arena σ) : Prop :=
  a'.length = a.length ∧ (∀ j, memberAt a' j = memberAt a j) ∧
  (∀ j, scoreAt a' j = scoreAt a j) ∧ (∀ j, fwdLenD a' j = fwdLenD a j)

theorem pres_refl {σ : Type} (a : Arena σ) : Pres a a :=
  ⟨rfl, fun _ => rfl, fun _ => rfl, fun _ => rfl⟩

theorem pres_trans {σ : Type} {a b c : Arena σ} (h1 : Pres a b) (h2 : Pres b c) :
    Pres a c :=
  ⟨h2.1.trans h1.1, fun j => (h2.2.1 j).trans (h1.2.1 j),
   fun j => (h2.2.2.1 j).trans (h1.2.2.1 j), fun j => (h2.2.2.2 j).trans (h1.2.2.2 j)⟩

theorem pres_setFwd {σ : Type} (a : Arena σ) (i lvl : Nat) (v : Option Nat) :
    Pres a (setFwd a i lvl v) :=
  ⟨length_setFwd a i lvl v, memberAt_setFwd a i lvl v, scoreAt_setFwd a i lvl v,
   fwdLenD_setFwd a i lvl v⟩

theorem unlinkGo_pres {σ : Type} (a : Arena σ) (t lvl : Nat) :
    ∀ (fuel cur : Nat), Pres a (unlinkGo a t lvl fuel cur) := by
  intro fuel
  induction fuel with
  | zero => intro cur; exact pres_refl a
  | succ n ih =>
    intro cur
    show Pres a (unlinkGo a t lvl (n + 1) cur)
    rw [unlinkGo]
    cases fwd a cur lvl with
    | none => exact pres_refl a
    | some j =>
      by_cases hj : j = t
      · simp only [hj, if_pos rfl]
        exact pres_setFwd a cur lvl (fwd a t lvl)
      · simp only [if_neg hj]
        exact ih j

theorem unlinkLevels_pres {σ : Type} (t : Nat) :
    ∀ (L : Nat) (a : Arena σ), Pres a (unlinkLevels a t L) := by
  intro L
  induction L with
  | zero => intro a; exact pres_refl a
  | succ l ih =>
    intro a
    exact pres_trans (unlinkGo_pres a t l a.length 0) (ih _)

theorem unlinkGo_fwd_ne {σ : Type} (a : Arena σ) (t : Nat) {lvl l' : Nat}
    (h : l' ≠ lvl) : ∀ (fuel cur i : Nat),
    fwd (unlinkGo a t lvl fuel cur) i l' = fwd a i l' := by
  intro fuel
  induction fuel with
  | zero => intro cur i; rfl
  | succ n ih =>
    intro cur i
    show fwd (unlinkGo a t lvl (n + 1) cur) i l' = fwd a i l'
    rw [unlinkGo]
    cases fwd a cur lvl with
    | none => rfl
    | some j =>
      by_cases hj : j = t
      · simp only [hj, if_pos rfl]
        exact fwd_setFwd_ne_lvl a cur i (fwd a t lvl) h
      · simp only [if_neg hj]
        exact ih j i

theorem shrinkGo_le {σ : Type} (a : Arena σ) :
    ∀ (fuel lvl : Nat), shrinkGo a fuel lvl ≤ lvl := by
  intro fuel
  induction fuel with
  | zero => intro lvl; exact Nat.le_refl _
  | succ n ih =>
    intro lvl
    show shrinkGo a (n + 1) lvl ≤ lvl
    rw [shrinkGo]
    by_cases h : 1 < lvl ∧ fwd a 0 (lvl - 1) = none
    · simp only [if_pos h]
      exact Nat.le_trans (ih (lvl - 1)) (Nat.sub_le lvl 1)
    · simp only [if_neg h]
      exact Nat.le_refl _

theorem shrinkGo_pos {σ : Type} (a : Arena σ) :
    ∀ (fuel lvl : Nat), 1 ≤ lvl → 1 ≤ shrinkGo a fuel lvl := by
  intro fuel
  induction fuel with
  | zero => intro lvl h; exact h
  | succ n ih =>
    intro lvl h
    show 1 ≤ shrinkGo a (n + 1) lvl
    rw [shrinkGo]
    by_cases hc : 1 < lvl ∧ fwd a 0 (lvl - 1) = none
    · simp only [if_pos hc]
      exact ih (lvl - 1) (Nat.le_sub_one_of_lt hc.1)
    · simp only [if_neg hc]
      exact h

/-! ### Unlink walk behaviour -/

/-- The node at which the unlink walk rewires: the last of `p`, or the
start if `p` is empty. -/
def lastD : List Nat → Nat → Nat
  | [], d => d
  | x :: xs, _ => lastD xs x

theorem lastD_mem (p : List Nat) (d : Nat) : lastD p d ∈ d :: p := by
  induction p generalizing d with
  | nil => exact List.mem_cons_self _ _
  | cons x xs ih =>
    exact List.mem_cons_of_mem _ (ih x)

theorem unlink_not_found {σ : Type} {a : Arena σ} {t lvl : Nat} :
    ∀ {c : List Nat} {cur fuel : Nat},
    ChainL a lvl (fwd a cur lvl) c → t ∉ c → c.length ≤ fuel →
    unlinkGo a t lvl fuel cur = a := by
  intro c
  induction c with
  | nil =>
    intro cur fuel hch _ _
    have h0 : fwd a cur lvl = none := chainL_head hch
    cases fuel with
    | zero => rfl
    | succ n => rw [unlinkGo, h0]
  | cons j c' ih =>
    intro cur fuel hch hnt hf
    have h0 : fwd a cur lvl = some j := chainL_head hch
    cases fuel with
    | zero => simp at hf
    | succ n =>
      rw [unlinkGo, h0]
      have hjt : ¬ j = t := fun h => hnt (h ▸ List.mem_cons_self _ _)
      simp only [if_neg hjt]
      rw [h0] at hch
      cases hch with
      | cons hlt htail =>
        exact ih htail (fun h => hnt (List.mem_cons_of_mem _ h))
          (Nat.le_of_succ_le_succ hf)

theorem unlink_found {σ : Type} {a : Arena σ} {t lvl : Nat} {s : List Nat} :
    ∀ (p : List Nat) {cur fuel : Nat},
    ChainL a lvl (fwd a cur lvl) (p ++ t :: s) → t ∉ p → p.length + 1 ≤ fuel →
    unlinkGo a t lvl fuel cur = setFwd a (lastD p cur) lvl (nextOpt s) := by
  intro p
  induction p with
  | nil =>
    intro cur fuel hch _ hf
    have h0 : fwd a cur lvl = some t := chainL_head hch
    cases fuel with
    | zero => simp at hf
    | succ n =>
      rw [unlinkGo, h0]
      simp only [if_pos rfl]
      have hmid : fwd a t lvl = nextOpt s :=
        chainL_fwd_mid (show ChainL a lvl (fwd a cur lvl) ([] ++ t :: s) from hch)
      rw [hmid]
      rfl
  | cons p0 p' ih =>
    intro cur fuel hch hnt hf
    have h0 : fwd a cur lvl = some p0 := chainL_head hch
    cases fuel with
    | zero => simp at hf
    | succ n =>
      rw [unlinkGo, h0]
      have hp0 : ¬ p0 = t := fun h => hnt (h ▸ List.mem_cons_self _ _)
      simp only [if_neg hp0]
      rw [h0] at hch
      cases hch with
      | cons hlt htail =>
        exact ih htail (fun h => hnt (List.mem_cons_of_mem _ h))
          (Nat.le_of_succ_le_succ hf)

theorem erase_first {t : Nat} : ∀ {p : List Nat} (s : List Nat), t ∉ p →
    (p ++ t :: s).erase t = p ++ s := by
  intro p
  induction p with
  | nil =>
    intro s _
    simp [List.erase_cons]
  | cons x p' ih =>
    intro s hnt
    have hx : ¬ x = t := fun h => hnt (h ▸ List.mem_cons_self _ _)
    have : ((x :: p') ++ t :: s).erase t = x :: ((p' ++ t :: s).erase t) := by
      simp [List.erase_cons, hx]
    rw [this, ih s (fun h => hnt (List.mem_cons_of_mem _ h))]
    rfl

theorem chainL_relink {σ : Type} {a : Arena σ} {t lvl : Nat} {s : List Nat} :
    ∀ (p : List Nat) {q : Nat},
    ChainL a lvl (some q) (q :: p ++ t :: s) →
    (q :: p ++ t :: s).Nodup →
    lvl < fwdLenD a (lastD p q) →
    ChainL (setFwd a (lastD p q) lvl (nextOpt s)) lvl (some q) (q :: p ++ s) := by
  intro p
  induction p with
  | nil =>
    intro q hch hnd hcap
    cases hch with
    | cons hlt htail =>
      have hqt : fwd a q lvl = some t := chainL_head htail
      have htail1 : ChainL a lvl (some t) (t :: s) := by
        rw [hqt] at htail; exact htail
      have htail2 : ChainL a lvl (fwd a t lvl) s := by
        cases htail1 with
        | cons h1 h2 => exact h2
      have hmid : fwd a t lvl = nextOpt s := chainL_head htail2
      have hqs : q ∉ s := by
        intro h
        exact (List.nodup_cons.mp hnd).1 (List.mem_cons_of_mem t h)
      have hcap' : lvl < fwdLenD a q := hcap
      show ChainL (setFwd a q lvl (nextOpt s)) lvl (some q) (q :: s)
      refine ChainL.cons ?_ ?_
      · rw [length_setFwd]; exact hlt
      · rw [fwd_setFwd_self a (nextOpt s) hcap']
        have hmono : ChainL (setFwd a q lvl (nextOpt s)) lvl (fwd a t lvl) s := by
          refine chainL_mono (by rw [length_setFwd]) ?_ htail2
          intro i hi
          exact fwd_setFwd_ne_node a lvl lvl (nextOpt s)
            (fun h => hqs (by rw [← h]; exact hi))
        rw [hmid] at hmono
        exact hmono
  | cons p0 p' ih =>
    intro q hch hnd hcap
    cases hch with
    | cons hlt htail =>
      have hq0 : fwd a q lvl = some p0 := chainL_head htail
      have htail' : ChainL a lvl (some p0) (p0 :: p' ++ t :: s) := by
        rw [hq0] at htail; exact htail
      have hnd' : (p0 :: p' ++ t :: s).Nodup := (List.nodup_cons.mp hnd).2
      have hstep := ih htail' hnd' hcap
      have hqlast : q ≠ lastD p' p0 := by
        intro h
        have hmem : lastD p' p0 ∈ p0 :: p' := lastD_mem p' p0
        have hq : q ∉ p0 :: p' ++ t :: s := (List.nodup_cons.mp hnd).1
        apply hq
        rw [h]
        rcases List.mem_cons.mp hmem with h1 | h2
        · rw [h1]; exact List.mem_cons_self _ _
        · exact List.mem_cons_of_mem _ (List.mem_append_left _ h2)
      show ChainL (setFwd a (lastD p' p0) lvl (nextOpt s)) lvl (some q)
        (q :: p0 :: (p' ++ s))
      refine ChainL.cons ?_ ?_
      · rw [length_setFwd]; exact hlt
      · rw [fwd_setFwd_ne_node a lvl lvl (nextOpt s) hqlast, hq0]
        exact hstep

/-! ### Per-level facts and the unlink iteration -/

/-- Facts about the head chain of `a` at one level that `remove_member`
and the insert search rely on: the chain is real, duplicate-free
(including the head), and every node on it has a slot at this level. -/
def LvlOk {σ : Type} (a : Arena σ) (lvl : Nat) (c : List Nat) : Prop :=
  ChainL a lvl (fwd a 0 lvl) c ∧ ((0 : Nat) :: c).Nodup ∧
  (∀ i ∈ (0 : Nat) :: c, lvl < fwdLenD a i)

theorem lvlOk_of_pres_fwd {σ : Type} {a a' : Arena σ} {lvl : Nat} {c : List Nat}
    (hok : LvlOk a lvl c) (hpres : Pres a a')
    (hf : ∀ i, fwd a' i lvl = fwd a i lvl) : LvlOk a' lvl c := by
  obtain ⟨hch, hnd, hcap⟩ := hok
  refine ⟨?_, hnd, ?_⟩
  · have hm := @chainL_mono σ a a' lvl (le_of_eq hpres.1.symm) _ _ (fun i _ => hf i) hch
    rw [hf 0]
    exact hm
  · intro i hi
    rw [hpres.2.2.2 i]
    exact hcap i hi

theorem nodup_erase_cons {c : List Nat} {t : Nat} (h : ((0 : Nat) :: c).Nodup) :
    ((0 : Nat) :: c.erase t).Nodup :=
  List.Nodup.sublist ((c.erase_sublist t).cons₂ 0) h

theorem lvlOk_len_bound {σ : Type} {a : Arena σ} {lvl : Nat} {c : List Nat}
    (h0 : 0 < a.length) (hok : LvlOk a lvl c) : c.length + 1 ≤ a.length := by
  obtain ⟨hch, hnd, _⟩ := hok
  have := nodup_length_le hnd (by
    intro i hi
    rcases List.mem_cons.mp hi with h1 | h2
    · exact h1 ▸ h0
    · exact chainL_lt hch i h2)
  simpa using this

/-- One pass of `remove_member`'s unlink loop: levels other than `L`
keep all their forward pointers, and the level-`L` head chain loses
exactly `t`. -/
theorem unlink_level_step {σ : Type} {a : Arena σ} (t : Nat) {L : Nat} {c : List Nat}
    (h0 : 0 < a.length) (hok : LvlOk a L c) :
    Pres a (unlinkGo a t L a.length 0) ∧
    (∀ l' i, l' ≠ L → fwd (unlinkGo a t L a.length 0) i l' = fwd a i l') ∧
    LvlOk (unlinkGo a t L a.length 0) L (c.erase t) := by
  obtain ⟨hch, hnd, hcap⟩ := hok
  refine ⟨unlinkGo_pres a t L a.length 0,
    fun l' i hl' => unlinkGo_fwd_ne a t hl' a.length 0 i, ?_⟩
  by_cases hmem : t ∈ c
  · obtain ⟨p, s, hdec⟩ := List.append_of_mem hmem
    have hndc : c.Nodup := (List.nodup_cons.mp hnd).2
    have hnt : t ∉ p := by
      intro hp
      rw [hdec] at hndc
      exact (List.nodup_append.mp hndc).2.2 hp (List.mem_cons_self _ _)
    have hch' : ChainL a L (fwd a 0 L) (p ++ t :: s) := hdec ▸ hch
    have hclen : c.length + 1 ≤ a.length := lvlOk_len_bound h0 ⟨hch, hnd, hcap⟩
    have hfuel : p.length + 1 ≤ a.length := by
      have hple : p.length + 1 ≤ c.length := by
        rw [hdec]
        simp
      omega
    have heq := unlink_found p hch' hnt hfuel
    have hfull : ChainL a L (some 0) ((0 : Nat) :: (p ++ t :: s)) :=
      ChainL.cons h0 hch'
    have hnd' : ((0 : Nat) :: (p ++ t :: s)).Nodup := by
      rw [hdec] at hnd
      exact hnd
    have hcapl : L < fwdLenD a (lastD p 0) := by
      apply hcap
      rcases List.mem_cons.mp (lastD_mem p 0) with h1 | h2
      · rw [h1]; exact List.mem_cons_self _ _
      · exact List.mem_cons_of_mem _ (hdec ▸ List.mem_append_left _ h2)
    have hnew := chainL_relink p hfull hnd' hcapl
    have herase : c.erase t = p ++ s := by
      rw [hdec]
      exact erase_first s hnt
    have hpres2 : Pres a (setFwd a (lastD p 0) L (nextOpt s)) :=
      pres_setFwd a _ L (nextOpt s)
    rw [heq, herase]
    refine ⟨?_, ?_, ?_⟩
    · cases hnew with
      | cons hlt htail => exact htail
    · rw [← herase, hdec]
      rw [hdec] at hnd
      exact nodup_erase_cons hnd
    · intro i hi
      rw [hpres2.2.2.2 i]
      apply hcap
      rcases List.mem_cons.mp hi with h1 | h2
      · rw [h1]; exact List.mem_cons_self _ _
      · refine List.mem_cons_of_mem _ ?_
        rw [hdec]
        rcases List.mem_append.mp h2 with h3 | h4
        · exact List.mem_append_left _ h3
        · exact List.mem_append_right _ (List.mem_cons_of_mem _ h4)
  · have hclen : c.length + 1 ≤ a.length := lvlOk_len_bound h0 ⟨hch, hnd, hcap⟩
    have heq := @unlink_not_found σ a t L c 0 a.length hch hmem (by omega)
    rw [heq, List.erase_of_not_mem hmem]
    exact ⟨hch, hnd, hcap⟩

/-- The whole unlink loop of `remove_member`: every processed level's
head chain loses exactly `t`; unprocessed levels keep their chains. -/
theorem unlinkLevels_chains {σ : Type} (t : Nat) :
    ∀ (L : Nat) (a : Arena σ) (c : Nat → List Nat), 0 < a.length →
    (∀ lvl, lvl < MAX_LEVEL → LvlOk a lvl (c lvl)) → L ≤ MAX_LEVEL →
    Pres a (unlinkLevels a t L) ∧
    (∀ lvl, lvl < MAX_LEVEL → LvlOk (unlinkLevels a t L) lvl
      (if lvl < L then (c lvl).erase t else c lvl)) := by
  intro L
  induction L with
  | zero =>
    intro a c h0 hok _
    refine ⟨pres_refl a, ?_⟩
    intro lvl hl
    simpa using hok lvl hl
  | succ L ih =>
    intro a c h0 hok hLle
    have hLlt : L < MAX_LEVEL := Nat.lt_of_lt_of_le (Nat.lt_succ_self L) hLle
    obtain ⟨hpres1, hfwd1, hok1⟩ := unlink_level_step t h0 (hok L hLlt)
    have h01 : 0 < (unlinkGo a t L a.length 0).length := by
      rw [hpres1.1]; exact h0
    have hok' : ∀ lvl, lvl < MAX_LEVEL →
        LvlOk (unlinkGo a t L a.length 0) lvl
          (if lvl = L then (c L).erase t else c lvl) := by
      intro lvl hl
      by_cases hlL : lvl = L
      · rw [if_pos hlL, hlL]; exact hok1
      · rw [if_neg hlL]
        exact lvlOk_of_pres_fwd (hok lvl hl) hpres1 (fun i => hfwd1 lvl i hlL)
    obtain ⟨hpres2, hch2⟩ := ih (unlinkGo a t L a.length 0)
      (fun lvl => if lvl = L then (c L).erase t else c lvl) h01 hok'
      (Nat.le_of_succ_le hLle)
    constructor
    · show Pres a (unlinkLevels a t (L + 1))
      rw [unlinkLevels]
      exact pres_trans hpres1 hpres2
    · intro lvl hl
      have hres := hch2 lvl hl
      show LvlOk (unlinkLevels a t (L + 1)) lvl
        (if lvl < L + 1 then (c lvl).erase t else c lvl)
      rw [unlinkLevels]
      by_cases h1 : lvl < L
      · rw [if_pos (Nat.lt_succ_of_lt h1)]
        rw [if_pos h1, if_neg (Nat.ne_of_lt h1)] at hres
        exact hres
      · by_cases h2 : lvl = L
        · subst h2
          rw [if_pos (Nat.lt_succ_self lvl)]
          rw [if_neg (by omega), if_pos rfl] at hres
          exact hres
        · rw [if_neg (by omega)]
          rw [if_neg (by omega), if_neg h2] at hres
          exact hres

/-! ### Scan and search lemmas -/

theorem first_filterMap {α β : Type} (f : α → Option β) {b : β} :
    ∀ {c : List α}, b ∈ c.filterMap f →
    ∃ p t s, c = p ++ t :: s ∧ f t = some b ∧ ∀ i ∈ p, f i ≠ some b := by
  intro c
  induction c with
  | nil => intro h; simp at h
  | cons x c' ih =>
    intro h
    by_cases hx : f x = some b
    · exact ⟨[], x, c', rfl, hx, by intro i hi; simp at hi⟩
    · have hb : b ∈ c'.filterMap f := by
        rcases List.mem_filterMap.mp h with ⟨y, hy, hfy⟩
        rcases List.mem_cons.mp hy with h1 | h2
        · exact absurd (h1 ▸ hfy) hx
        · exact List.mem_filterMap.mpr ⟨y, h2, hfy⟩
      obtain ⟨p, t, s, hdec, hft, hp⟩ := ih hb
      refine ⟨x :: p, t, s, by simp [hdec], hft, ?_⟩
      intro i hi
      rcases List.mem_cons.mp hi with h1 | h2
      · exact h1 ▸ hx
      · exact hp i h2

theorem memberAt_eq_some {σ : Type} {a : Arena σ} {i : Nat} {m : List Nat}
    (h : memberAt a i = some m) : ∃ nd, nth a i = some nd ∧ nd.member = m := by
  unfold memberAt at h
  cases hn : nth a i with
  | none => rw [hn] at h; simp at h
  | some nd =>
    rw [hn] at h
    exact ⟨nd, rfl, by simpa using h⟩

theorem findMemberGo_spec {σ : Type} {a : Arena σ} {m : List Nat} {t : Nat}
    {s : List Nat} :
    ∀ (p : List Nat) {o : Option Nat} {fuel : Nat},
    ChainL a 0 o (p ++ t :: s) → (∀ i ∈ p, memberAt a i ≠ some m) →
    memberAt a t = some m → p.length + 1 ≤ fuel →
    findMemberGo a m fuel o = some t := by
  intro p
  induction p with
  | nil =>
    intro o fuel hch hp hm hf
    have ho : o = some t := chainL_head hch
    obtain ⟨nd, hnd, hmem⟩ := memberAt_eq_some hm
    cases fuel with
    | zero => simp at hf
    | succ n =>
      rw [ho, findMemberGo, hnd]
      simp [hmem]
  | cons x p' ih =>
    intro o fuel hch hp hm hf
    have ho : o = some x := chainL_head hch
    rw [ho] at hch
    cases hch with
    | cons hlt htail =>
      obtain ⟨nd, hnd⟩ := nth_lt hlt
      have hxm : nd.member ≠ m := by
        intro hc
        exact hp x (List.mem_cons_self _ _) (by unfold memberAt; rw [hnd]; simp [hc])
      cases fuel with
      | zero => simp at hf
      | succ n =>
        rw [ho, findMemberGo, hnd]
        simp only [if_neg hxm]
        exact ih htail (fun i hi => hp i (List.mem_cons_of_mem _ hi)) hm
          (Nat.le_of_succ_le_succ hf)

theorem getScoreGo_spec {σ : Type} {a : Arena σ} {m : List Nat} {t : Nat}
    {s : List Nat} {sc : σ} :
    ∀ (p : List Nat) {o : Option Nat} {fuel : Nat},
    ChainL a 0 o (p ++ t :: s) → (∀ i ∈ p, memberAt a i ≠ some m) →
    memberAt a t = some m → scoreAt a t = some sc → p.length + 1 ≤ fuel →
    getScoreGo a m fuel o = some sc := by
  intro p
  induction p with
  | nil =>
    intro o fuel hch hp hm hsc hf
    have ho : o = some t := chainL_head hch
    obtain ⟨nd, hnd, hmem⟩ := memberAt_eq_some hm
    have hscore : nd.score = sc := by
      unfold scoreAt at hsc
      rw [hnd] at hsc
      simpa using hsc
    cases fuel with
    | zero => simp at hf
    | succ n =>
      rw [ho, getScoreGo, hnd]
      simp [hmem, hscore]
  | cons x p' ih =>
    intro o fuel hch hp hm hsc hf
    have ho : o = some x := chainL_head hch
    rw [ho] at hch
    cases hch with
    | cons hlt htail =>
      obtain ⟨nd, hnd⟩ := nth_lt hlt
      have hxm : nd.member ≠ m := by
        intro hc
        exact hp x (List.mem_cons_self _ _) (by unfold memberAt; rw [hnd]; simp [hc])
      cases fuel with
      | zero => simp at hf
      | succ n =>
        rw [ho, getScoreGo, hnd]
        simp only [if_neg hxm]
        exact ih htail (fun i hi => hp i (List.mem_cons_of_mem _ hi)) hm hsc
          (Nat.le_of_succ_le_succ hf)

theorem walkGo_mem {σ : Type} {cmp : σ → σ → Ordering} {a : Arena σ} {score : σ}
    {member : List Nat} {lvl : Nat} :
    ∀ {c : List Nat} {cur fuel : Nat},
    ChainL a lvl (fwd a cur lvl) c → c.length < fuel →
    walkGo cmp a score member lvl cur fuel ∈ cur :: c := by
  intro c
  induction c with
  | nil =>
    intro cur fuel hch hf
    have h0 : fwd a cur lvl = none := chainL_head hch
    cases fuel with
    | zero => simp at hf
    | succ n =>
      rw [walkGo, h0]
      exact List.mem_cons_self _ _
  | cons j c' ih =>
    intro cur fuel hch hf
    have h0 : fwd a cur lvl = some j := chainL_head hch
    rw [h0] at hch
    cases hch with
    | cons hlt htail =>
      obtain ⟨nd, hnd⟩ := nth_lt hlt
      cases fuel with
      | zero => simp at hf
      | succ n =>
        rw [walkGo]
        simp only [h0, hnd]
        by_cases hcc : compareSL cmp nd.score nd.member score member = .lt
        · simp only [if_pos hcc]
          exact List.mem_cons_of_mem _
            (ih htail (by simpa using Nat.lt_of_succ_lt_succ hf))
        · simp only [if_neg hcc]
          exact List.mem_cons_self _ _

/-- Extract the chain hanging off any node of a head chain. -/
theorem mem_suffix_chain {σ : Type} {a : Arena σ} {lvl : Nat} {c : List Nat}
    {cur : Nat} (hfull : ChainL a lvl (some 0) ((0 : Nat) :: c))
    (hcur : cur ∈ (0 : Nat) :: c) :
    ∃ s, ChainL a lvl (fwd a cur lvl) s ∧ (∀ x ∈ s, x ∈ (0 : Nat) :: c) ∧
      s.length ≤ c.length := by
  obtain ⟨q, s, hdec⟩ := List.append_of_mem hcur
  have hsuf := chainL_suffix (hdec ▸ hfull)
  cases hsuf with
  | cons hlt htail =>
    refine ⟨s, htail, ?_, ?_⟩
    · intro x hx
      rw [hdec]
      exact List.mem_append_right _ (List.mem_cons_of_mem _ hx)
    · have : ((0 : Nat) :: c).length = q.length + (s.length + 1) := by
        rw [hdec]; simp
      simp at this
      omega

theorem searchGo_length {σ : Type} (cmp : σ → σ → Ordering) (a : Arena σ)
    (score : σ) (member : List Nat) :
    ∀ (k cur : Nat), (searchGo cmp a score member k cur).length = k := by
  intro k
  induction k with
  | zero => intro cur; rfl
  | succ n ih =>
    intro cur
    rw [searchGo]
    simp [ih]

theorem headD_append_singleton {xs : List Nat} {y d : Nat} :
    (xs ++ [y]).headD d = xs.headD y := by
  cases xs <;> rfl

/-- The search's final `current` (the level-0 update entry) stays on the
level-0 head chain.  `c l` is the head chain at level `l`; the cascade
hypothesis says each chain's nodes appear one level down. -/
theorem searchGo_headD_mem {σ : Type} {cmp : σ → σ → Ordering} {a : Arena σ}
    {score : σ} {member : List Nat} {c : Nat → List Nat} {L : Nat}
    (h0 : 0 < a.length)
    (hok : ∀ l, l < L → LvlOk a l (c l))
    (hsub : ∀ l, 0 < l → l < L → ∀ x ∈ c l, x ∈ c (l - 1)) :
    ∀ (k : Nat), k ≤ L → ∀ (cur : Nat), cur ∈ (0 : Nat) :: c (k - 1) →
    (searchGo cmp a score member k cur).headD cur ∈ (0 : Nat) :: c 0 := by
  intro k
  induction k with
  | zero =>
    intro _ cur hcur
    exact hcur
  | succ l ih =>
    intro hk cur hcur
    have hlL : l < L := Nat.lt_of_succ_le hk
    obtain ⟨hch, hnd, hcap⟩ := hok l hlL
    have hfull : ChainL a l (some 0) ((0 : Nat) :: c l) := ChainL.cons h0 hch
    have hcur' : cur ∈ (0 : Nat) :: c l := by simpa using hcur
    obtain ⟨s, hsch, hssub, hslen⟩ := mem_suffix_chain hfull hcur'
    have hclen : (c l).length + 1 ≤ a.length := lvlOk_len_bound h0 ⟨hch, hnd, hcap⟩
    have hw := @walkGo_mem σ cmp a score member l s cur a.length hsch (by omega)
    have hcmem : walkGo cmp a score member l cur a.length ∈ (0 : Nat) :: c l := by
      rcases List.mem_cons.mp hw with h1 | h2
      · rw [h1]; exact hcur'
      · exact hssub _ h2
    have hcdown : walkGo cmp a score member l cur a.length ∈
        (0 : Nat) :: c (l - 1) := by
      by_cases hl0 : l = 0
      · rw [← hl0]; simpa [hl0] using hcmem
      · rcases List.mem_cons.mp hcmem with h1 | h2
        · rw [h1]; exact List.mem_cons_self _ _
        · exact List.mem_cons_of_mem _
            (hsub l (Nat.pos_of_ne_zero hl0) hlL _ h2)
    have hres := ih (Nat.le_of_succ_le hk) _ hcdown
    rw [searchGo, headD_append_singleton]
    exact hres

/-! ### Pushing the new node and splicing -/

theorem nth_append_left {α : Type} {a : List α} (b : List α) {i : Nat}
    (h : i < a.length) : nth (a ++ b) i = nth a i := by
  induction a generalizing i with
  | nil => simp at h
  | cons x xs ih =>
    cases i with
    | zero => rfl
    | succ n => exact ih (Nat.lt_of_succ_lt_succ h)

theorem nth_append_self {α : Type} (a : List α) (x : α) :
    nth (a ++ [x]) a.length = some x := by
  induction a with
  | nil => rfl
  | cons y ys ih => simpa using ih

theorem fwd_append {σ : Type} {a : Arena σ} (nd : SLNode σ) {i : Nat}
    (h : i < a.length) (lvl : Nat) : fwd (a ++ [nd]) i lvl = fwd a i lvl := by
  unfold fwd
  rw [nth_append_left [nd] h]

theorem memberAt_append {σ : Type} {a : Arena σ} (nd : SLNode σ) {i : Nat}
    (h : i < a.length) : memberAt (a ++ [nd]) i = memberAt a i := by
  unfold memberAt
  rw [nth_append_left [nd] h]

theorem scoreAt_append {σ : Type} {a : Arena σ} (nd : SLNode σ) {i : Nat}
    (h : i < a.length) : scoreAt (a ++ [nd]) i = scoreAt a i := by
  unfold scoreAt
  rw [nth_append_left [nd] h]

theorem fwdLenD_append {σ : Type} {a : Arena σ} (nd : SLNode σ) {i : Nat}
    (h : i < a.length) : fwdLenD (a ++ [nd]) i = fwdLenD a i := by
  unfold fwdLenD
  rw [nth_append_left [nd] h]

theorem splice_pres {σ : Type} (a0 : Arena σ) (upd : List Nat) (ni : Nat) :
    ∀ (l : Nat), Pres a0 (spliceUpTo a0 upd ni l) := by
  intro l
  induction l with
  | zero => exact pres_refl a0
  | succ k ih =>
    show Pres a0 (spliceUpTo a0 upd ni (k + 1))
    rw [spliceUpTo]
    exact pres_trans ih (pres_trans (pres_setFwd _ ni k _) (pres_setFwd _ _ k _))

theorem spliceUpTo_fwd0_stable {σ : Type} (a0 : Arena σ) (upd : List Nat)
    (ni : Nat) : ∀ (k i : Nat),
    fwd (spliceUpTo a0 upd ni (k + 1)) i 0 = fwd (spliceUpTo a0 upd ni 1) i 0 := by
  intro k
  induction k with
  | zero => intro i; rfl
  | succ m ih =>
    intro i
    show fwd (spliceUpTo a0 upd ni (m + 1 + 1)) i 0 = _
    rw [spliceUpTo]
    rw [fwd_setFwd_ne_lvl _ _ i _ (Nat.zero_ne_add_one m),
        fwd_setFwd_ne_lvl _ _ i _ (Nat.zero_ne_add_one m)]
    exact ih i

/-- Level-0 pointers after the splice: the new node `ni` takes over the
old successor of the level-0 update node `u0`, which now points at `ni`;
nothing else moves. -/
theorem splice_fwd0 {σ : Type} (a0 : Arena σ) (upd : List Nat) (ni : Nat)
    {u0 : Nat} (hu0 : (nth upd 0).getD 0 = u0) (hne : ni ≠ u0)
    (hcapn : 0 < fwdLenD a0 ni) (hcapu : 0 < fwdLenD a0 u0) {nl : Nat}
    (hnl : 1 ≤ nl) :
    (∀ i, i ≠ u0 → i ≠ ni → fwd (spliceUpTo a0 upd ni nl) i 0 = fwd a0 i 0) ∧
    fwd (spliceUpTo a0 upd ni nl) ni 0 = fwd a0 u0 0 ∧
    fwd (spliceUpTo a0 upd ni nl) u0 0 = some ni := by
  obtain ⟨m, rfl⟩ : ∃ m, nl = m + 1 := ⟨nl - 1, by omega⟩
  have hsingle : spliceUpTo a0 upd ni 1 =
      setFwd (setFwd a0 ni 0 (fwd a0 u0 0)) u0 0 (some ni) := by
    show spliceUpTo a0 upd ni (0 + 1) = _
    rw [spliceUpTo]
    rw [spliceUpTo]
    rw [hu0]
  refine ⟨?_, ?_, ?_⟩
  · intro i hiu hin
    rw [spliceUpTo_fwd0_stable a0 upd ni m i, hsingle,
        fwd_setFwd_ne_node _ 0 0 _ hiu, fwd_setFwd_ne_node _ 0 0 _ hin]
  · rw [spliceUpTo_fwd0_stable a0 upd ni m ni, hsingle,
        fwd_setFwd_ne_node _ 0 0 _ hne, fwd_setFwd_self a0 _ hcapn]
  · rw [spliceUpTo_fwd0_stable a0 upd ni m u0, hsingle,
        fwd_setFwd_self _ _ (by rw [fwdLenD_setFwd]; exact hcapu)]

/-- Inserting a fresh node `ni` after `u0` in a chain: if the arena `a1`
differs from `b0` only in that `u0` now points to `ni` and `ni` points
to `u0`'s old successor, the chain gains `ni` right after `u0`. -/
theorem chainL_ins {σ : Type} {b0 a1 : Arena σ} {lvl u0 ni : Nat} {S : List Nat}
    (hlen : b0.length ≤ a1.length) (hni_lt : ni < a1.length)
    (hu0f : fwd a1 u0 lvl = some ni)
    (hnif : fwd a1 ni lvl = nextOpt S)
    (hsame : ∀ i, i ≠ u0 → i ≠ ni → fwd a1 i lvl = fwd b0 i lvl)
    (hu0S : u0 ∉ S) (hniS : ni ∉ S) :
    ∀ (P : List Nat), u0 ∉ P → ni ∉ P →
    ∀ {o : Option Nat}, ChainL b0 lvl o (P ++ u0 :: S) →
    ChainL a1 lvl o (P ++ u0 :: ni :: S) := by
  intro P
  induction P with
  | nil =>
    intro _ _ o hch
    have ho : o = some u0 := chainL_head hch
    rw [ho] at hch ⊢
    cases hch with
    | cons hlt htail =>
      have hmid : fwd b0 u0 lvl = nextOpt S := chainL_head htail
      refine ChainL.cons (Nat.lt_of_lt_of_le hlt hlen) ?_
      rw [hu0f]
      refine ChainL.cons hni_lt ?_
      rw [hnif]
      have htS : ChainL a1 lvl (fwd b0 u0 lvl) S := by
        refine chainL_mono hlen ?_ htail
        intro x hx
        exact hsame x (fun h => hu0S (h ▸ hx)) (fun h => hniS (h ▸ hx))
      rw [hmid] at htS
      exact htS
  | cons x P' ih =>
    intro hu0P hniP o hch
    have ho : o = some x := chainL_head hch
    rw [ho] at hch ⊢
    cases hch with
    | cons hlt htail =>
      refine ChainL.cons (Nat.lt_of_lt_of_le hlt hlen) ?_
      have hxu : x ≠ u0 := fun h => hu0P (h ▸ List.mem_cons_self _ _)
      have hxn : x ≠ ni := fun h => hniP (h ▸ List.mem_cons_self _ _)
      rw [hsame x hxu hxn]
      exact ih (fun h => hu0P (List.mem_cons_of_mem _ h))
        (fun h => hniP (List.mem_cons_of_mem _ h)) htail

/-! ### From the executable checker to the chain facts -/

theorem wfLvls_spec {σ : Type} {sl : SkipList σ} :
    ∀ {k : Nat}, wfLvls sl k = true → ∀ l, l ≤ k → wfLvl sl l = true := by
  intro k
  induction k with
  | zero =>
    intro h l hl
    rw [Nat.le_zero.mp hl]
    exact h
  | succ n ih =>
    intro h l hl
    rw [wfLvls, Bool.and_eq_true] at h
    rcases Nat.lt_or_ge l (n + 1) with h1 | h2
    · exact ih h.2 l (Nat.lt_succ_iff.mp h1)
    · rw [Nat.le_antisymm hl h2]
      exact h.1

theorem wfLvl_spec {σ : Type} {sl : SkipList σ} {lvl : Nat}
    (h : wfLvl sl lvl = true) :
    LvlOk sl.arena lvl (sl.chainAt lvl) ∧
    (0 < lvl → ∀ x ∈ sl.chainAt lvl, x ∈ sl.chainAt (lvl - 1)) := by
  rw [wfLvl] at h
  simp only [Bool.and_eq_true, List.all_eq_true, decide_eq_true_eq,
    Bool.or_eq_true] at h
  obtain ⟨⟨⟨⟨ht, hv⟩, hnd⟩, hcap⟩, hsb⟩ := h
  have hch : ChainL sl.arena lvl (fwd sl.arena 0 lvl) (sl.chainAt lvl) :=
    chainL_of_chainT sl.arena lvl sl.arena.length (fwd sl.arena 0 lvl) ht hv
  refine ⟨⟨hch, hnd, hcap⟩, ?_⟩
  intro hpos x hx
  rcases hsb with h1 | h2
  · omega
  · exact h2 x hx

theorem wf_spec {σ : Type} {sl : SkipList σ} (h : sl.wf = true) :
    0 < sl.arena.length ∧ fwdLenD sl.arena 0 = MAX_LEVEL ∧
    1 ≤ sl.level ∧ sl.level ≤ MAX_LEVEL ∧
    (∀ lvl, lvl < MAX_LEVEL → LvlOk sl.arena lvl (sl.chainAt lvl)) ∧
    (∀ lvl, 0 < lvl → lvl < MAX_LEVEL →
      ∀ x ∈ sl.chainAt lvl, x ∈ sl.chainAt (lvl - 1)) ∧
    sl.length = (sl.chainAt 0).length ∧
    (memsOf sl.arena (sl.chainAt 0)).Nodup := by
  rw [SkipList.wf] at h
  simp only [Bool.and_eq_true, decide_eq_true_eq] at h
  obtain ⟨⟨⟨⟨⟨⟨h0, hhd⟩, h1⟩, h16⟩, hlvls⟩, hlen⟩, hmnd⟩ := h
  have hl : ∀ l, l ≤ MAX_LEVEL - 1 → wfLvl sl l = true := wfLvls_spec hlvls
  refine ⟨h0, hhd, h1, h16, ?_, ?_, hlen, hmnd⟩
  · intro lvl hlt
    exact (wfLvl_spec (hl lvl (by omega))).1
  · intro lvl hpos hlt
    exact (wfLvl_spec (hl lvl (by omega))).2 hpos

/-! ### Members along chains -/

theorem memsOf_append {σ : Type} (a : Arena σ) (x y : List Nat) :
    memsOf a (x ++ y) = memsOf a x ++ memsOf a y := by
  unfold memsOf
  exact List.filterMap_append x y (memberAt a)

theorem memsOf_cons_some {σ : Type} {a : Arena σ} {i : Nat} {m : List Nat}
    (h : memberAt a i = some m) (c : List Nat) :
    memsOf a (i :: c) = m :: memsOf a c := by
  unfold memsOf
  rw [List.filterMap_cons, h]

theorem memsOf_congr {σ : Type} {a a' : Arena σ} {c : List Nat}
    (h : ∀ x ∈ c, memberAt a' x = memberAt a x) : memsOf a' c = memsOf a c := by
  unfold memsOf
  induction c with
  | nil => rfl
  | cons x xs ih =>
    rw [List.filterMap_cons, List.filterMap_cons, h x (List.mem_cons_self _ _),
      ih (fun y hy => h y (List.mem_cons_of_mem _ hy))]

theorem mem_memsOf {σ : Type} {a : Arena σ} {i : Nat} {m : List Nat}
    {c : List Nat} (hi : i ∈ c) (h : memberAt a i = some m) :
    m ∈ memsOf a c :=
  List.mem_filterMap.mpr ⟨i, hi, h⟩

/-! ### The effect of `insert`'s search+push+splice phase -/

/-- After `remove_member` has run (arena `b`, level `L2`, chains `cF`,
member `m` no longer present), the push-and-splice phase of `insert`
produces an arena whose level-0 chain carries each member once and whose
level-0 scan finds `m` with the new score. -/
theorem insert_splice_facts {σ : Type} (cmp : σ → σ → Ordering) (b : Arena σ)
    (L2 nl : Nat) (score : σ) (m : List Nat) (cF : Nat → List Nat)
    (A1 : Arena σ)
    (h0 : 0 < b.length) (hL2 : 1 ≤ L2)
    (hokb : ∀ l, l < L2 → LvlOk b l (cF l))
    (hsubb : ∀ l, 0 < l → l < L2 → ∀ x ∈ cF l, x ∈ cF (l - 1))
    (hmabs : ∀ x ∈ cF 0, memberAt b x ≠ some m)
    (hmnd : (memsOf b (cF 0)).Nodup)
    (hnl : 1 ≤ nl)
    (hA1 : A1 = spliceUpTo (b ++ [⟨score, m, List.replicate nl none⟩])
      (searchGo cmp b score m L2 0 ++ List.replicate (MAX_LEVEL - L2) 0)
      b.length nl) :
    A1.length = b.length + 1 ∧
    (memsOf A1 (chainF A1 0 (b.length + 1) (fwd A1 0 0))).Nodup ∧
    getScoreGo A1 m (b.length + 1) (fwd A1 0 0) = some score := by
  obtain ⟨hchE, hndE, hcapE⟩ := hokb 0 hL2
  have hElen : (cF 0).length + 1 ≤ b.length :=
    lvlOk_len_bound h0 ⟨hchE, hndE, hcapE⟩
  have hElt : ∀ y ∈ (0 : Nat) :: cF 0, y < b.length := by
    intro y hy
    rcases List.mem_cons.mp hy with h1 | h2
    · exact h1 ▸ h0
    · exact chainL_lt hchE y h2
  -- the level-0 update entry
  cases hsg : searchGo cmp b score m L2 0 with
  | nil =>
    exfalso
    have := searchGo_length cmp b score m L2 0
    rw [hsg] at this
    simp at this
    omega
  | cons x xs =>
  have hu0mem : x ∈ (0 : Nat) :: cF 0 := by
    have hh := @searchGo_headD_mem σ cmp b score m cF L2
      h0 hokb hsubb L2 (Nat.le_refl L2) 0 (List.mem_cons_self _ _)
    rw [hsg] at hh
    exact hh
  have hu0lt : x < b.length := hElt x hu0mem
  -- the pushed node
  have hb0len : (b ++ [(⟨score, m, List.replicate nl none⟩ : SLNode σ)]).length =
      b.length + 1 := by simp
  have hnthni : nth (b ++ [(⟨score, m, List.replicate nl none⟩ : SLNode σ)])
      b.length = some ⟨score, m, List.replicate nl none⟩ := nth_append_self b _
  have hcapni : 0 < fwdLenD (b ++ [(⟨score, m, List.replicate nl none⟩ : SLNode σ)])
      b.length := by
    unfold fwdLenD
    rw [hnthni]
    simpa using hnl
  have hcapu : 0 < fwdLenD (b ++ [(⟨score, m, List.replicate nl none⟩ : SLNode σ)])
      x := by
    rw [fwdLenD_append _ hu0lt]
    exact hcapE x hu0mem
  have hneq : b.length ≠ x := (Nat.ne_of_lt hu0lt).symm
  -- level-0 chain of the pushed arena
  have hchb0 : ChainL (b ++ [(⟨score, m, List.replicate nl none⟩ : SLNode σ)]) 0
      (fwd (b ++ [(⟨score, m, List.replicate nl none⟩ : SLNode σ)]) 0 0)
      (cF 0) := by
    have hmono := @chainL_mono σ b
      (b ++ [(⟨score, m, List.replicate nl none⟩ : SLNode σ)]) 0 (by simp) _ _
      (fun i hi => fwd_append _ (hElt i (List.mem_cons_of_mem _ hi)) 0) hchE
    rw [fwd_append _ h0 0]
    exact hmono
  have hF : ChainL (b ++ [(⟨score, m, List.replicate nl none⟩ : SLNode σ)]) 0
      (some 0) ((0 : Nat) :: cF 0) := ChainL.cons (by simpa using Nat.lt_succ_of_lt h0) hchb0
  obtain ⟨P, S, hPS⟩ := List.append_of_mem hu0mem
  have hFdec : ChainL (b ++ [(⟨score, m, List.replicate nl none⟩ : SLNode σ)]) 0
      (some 0) (P ++ x :: S) := hPS ▸ hF
  have hmid : fwd (b ++ [(⟨score, m, List.replicate nl none⟩ : SLNode σ)]) x 0 =
      nextOpt S := chainL_fwd_mid hFdec
  -- splice pointer analysis
  have hnthud : (nth ((x :: xs) ++ List.replicate (MAX_LEVEL - L2) 0) 0).getD 0 = x := rfl
  obtain ⟨hs1, hs2, hs3⟩ := splice_fwd0
    (b ++ [(⟨score, m, List.replicate nl none⟩ : SLNode σ)])
    ((x :: xs) ++ List.replicate (MAX_LEVEL - L2) 0) b.length hnthud hneq
    hcapni hcapu hnl
  rw [← hsg, ← hA1] at hs1 hs2 hs3
  rw [hmid] at hs2
  -- distinctness
  have hndF : (P ++ x :: S).Nodup := hPS ▸ hndE
  have hxP : x ∉ P := by
    have := (List.nodup_append.mp hndF).2.2
    intro hx
    exact this hx (List.mem_cons_self _ _)
  have hxS : x ∉ S := by
    have := (List.nodup_append.mp hndF).1
    have h2 := (List.nodup_append.mp hndF).2.1
    exact (List.nodup_cons.mp h2).1
  have hniP : b.length ∉ P := by
    intro hx
    have : b.length ∈ (0 : Nat) :: cF 0 := by rw [hPS]; exact List.mem_append_left _ hx
    exact absurd (hElt _ this) (Nat.lt_irrefl _)
  have hniS : b.length ∉ S := by
    intro hx
    have : b.length ∈ (0 : Nat) :: cF 0 := by
      rw [hPS]
      exact List.mem_append_right _ (List.mem_cons_of_mem _ hx)
    exact absurd (hElt _ this) (Nat.lt_irrefl _)
  -- splice the new node into the chain
  have hA1len : A1.length = b.length + 1 := by
    rw [hA1, (splice_pres _ _ _ _).1]
    simp
  have hchA1 : ChainL A1 0 (some 0) (P ++ x :: b.length :: S) := by
    refine chainL_ins (by omega) (by omega) hs3 hs2 hs1 hxS hniS P hxP hniP hFdec
  -- identify the head and the scan prefix
  have hkey : ∃ pre, pre ++ S = cF 0 ∧
      ChainL A1 0 (fwd A1 0 0) (pre ++ b.length :: S) := by
    cases P with
    | nil =>
      have hx0 : x = 0 ∧ cF 0 = S := by
        have := hPS
        simp at this
        exact ⟨this.1.symm, this.2⟩
      obtain ⟨hx0', hES⟩ := hx0
      subst hx0'
      refine ⟨[], hES.symm, ?_⟩
      have hchA1' : ChainL A1 0 (some 0) ((0 : Nat) :: b.length :: S) := hchA1
      cases hchA1' with
      | cons hlt htail => exact htail
    | cons p0 P1 =>
      have hp0 : p0 = 0 ∧ cF 0 = P1 ++ x :: S := by
        have := hPS
        simp at this
        exact ⟨this.1.symm, this.2⟩
      obtain ⟨hp0', hE⟩ := hp0
      subst hp0'
      refine ⟨P1 ++ [x], by rw [hE]; simp, ?_⟩
      have hchA1' : ChainL A1 0 (some 0)
          ((0 : Nat) :: (P1 ++ x :: b.length :: S)) := hchA1
      cases hchA1' with
      | cons hlt htail =>
        have hshape : P1 ++ x :: b.length :: S = (P1 ++ [x]) ++ b.length :: S := by
          simp
        rw [← hshape]
        exact htail
  obtain ⟨pre, hpreE, hchC⟩ := hkey
  -- members seen through the final arena
  have hpresA : Pres (b ++ [(⟨score, m, List.replicate nl none⟩ : SLNode σ)]) A1 := by
    rw [hA1]
    exact splice_pres _ _ _ _
  have hmemA1 : ∀ y, y < b.length → memberAt A1 y = memberAt b y := by
    intro y hy
    rw [hpresA.2.1 y, memberAt_append _ hy]
  have hmemni : memberAt A1 b.length = some m := by
    rw [hpresA.2.1 b.length]
    unfold memberAt
    rw [hnthni]
    rfl
  have hscni : scoreAt A1 b.length = some score := by
    rw [hpresA.2.2.1 b.length]
    unfold scoreAt
    rw [hnthni]
    rfl
  have hpreSub : ∀ i ∈ pre, i ∈ cF 0 := by
    intro i hi
    rw [← hpreE]
    exact List.mem_append_left _ hi
  have hSSub : ∀ i ∈ S, i ∈ cF 0 := by
    intro i hi
    rw [← hpreE]
    exact List.mem_append_right _ hi
  have hprene : ∀ i ∈ pre, memberAt A1 i ≠ some m := by
    intro i hi
    rw [hmemA1 i (hElt i (List.mem_cons_of_mem _ (hpreSub i hi)))]
    exact hmabs i (hpreSub i hi)
  have hprelen : pre.length + 1 ≤ b.length + 1 := by
    have : pre.length ≤ (cF 0).length := by
      rw [← hpreE]
      simp
    omega
  refine ⟨hA1len, ?_, ?_⟩
  · -- no duplicate members on the final level-0 chain
    have hCF : chainF A1 0 (b.length + 1) (fwd A1 0 0) = pre ++ b.length :: S := by
      refine chainF_eq_of_chainL hchC ?_
      have h1 : pre.length + S.length = (cF 0).length := by
        rw [← hpreE]; simp
      simp
      omega
    rw [hCF, memsOf_append, memsOf_cons_some hmemni]
    have hpreM : memsOf A1 pre = memsOf b pre :=
      memsOf_congr (fun i hi =>
        hmemA1 i (hElt i (List.mem_cons_of_mem _ (hpreSub i hi))))
    have hSM : memsOf A1 S = memsOf b S :=
      memsOf_congr (fun i hi =>
        hmemA1 i (hElt i (List.mem_cons_of_mem _ (hSSub i hi))))
    rw [hpreM, hSM]
    rw [List.nodup_middle]
    refine List.nodup_cons.mpr ⟨?_, ?_⟩
    · intro hmem
      rw [← memsOf_append, hpreE] at hmem
      rcases List.mem_filterMap.mp hmem with ⟨i, hi, hmi⟩
      exact hmabs i hi hmi
    · rw [← memsOf_append, hpreE]
      exact hmnd
  · -- the level-0 scan finds the new node's score
    exact getScoreGo_spec pre hchC hprene hmemni hscni hprelen

/-- C7: for every well-formed skip list and every member already present
in it, `insert(score', member)` leaves the cardinality (the `length`
field) unchanged, the level-0 chain afterwards never carries two nodes
with the same member, and `get_score` sees the member with the new score
(the prior node is removed before the new one is spliced in).  The value
of `random_level()` and the score comparator are arbitrary. -/
theorem c7_insert_existing_member {σ : Type} (cmp : σ → σ → Ordering) (rl : Nat)
    (sl : SkipList σ) (score : σ) (m : List Nat)
    (hwf : sl.wf = true) (hm : m ∈ memsOf sl.arena (sl.chainAt 0)) :
    (sl.insert cmp rl score m).length = sl.length ∧
    (memsOf (sl.insert cmp rl score m).arena
      ((sl.insert cmp rl score m).chainAt 0)).Nodup ∧
    (sl.insert cmp rl score m).getScore m = some score := by
  obtain ⟨h0, hhd, hlv1, hlv16, hok, hsub, hlen, hmnd⟩ := wf_spec hwf
  obtain ⟨pm, t, sm, hdec0, hmt, hpm⟩ := first_filterMap (memberAt sl.arena) hm
  obtain ⟨hch0, hnd0, hcap0⟩ := hok 0 (by decide)
  have hchpm : ChainL sl.arena 0 (fwd sl.arena 0 0) (pm ++ t :: sm) := hdec0 ▸ hch0
  have hclen0 : (sl.chainAt 0).length + 1 ≤ sl.arena.length :=
    lvlOk_len_bound h0 ⟨hch0, hnd0, hcap0⟩
  have hpmlen : pm.length + 1 ≤ sl.arena.length := by
    have h1 : pm.length + 1 ≤ (sl.chainAt 0).length := by
      rw [hdec0]; simp
    omega
  have hfind : findMember sl.arena m = some t := by
    unfold findMember
    exact findMemberGo_spec pm hchpm hpm hmt hpmlen
  -- the state after `remove_member`
  have hrm : sl.removeMember m =
      (⟨unlinkLevels sl.arena t sl.level,
        shrinkGo (unlinkLevels sl.arena t sl.level) sl.level sl.level,
        sl.length - 1⟩, true) := by
    rw [SkipList.removeMember, hfind]
  obtain ⟨hpresR, hokR⟩ := unlinkLevels_chains t sl.level sl.arena
    (fun lvl => sl.chainAt lvl) h0 hok hlv16
  have h02 : 0 < (unlinkLevels sl.arena t sl.level).length := by
    rw [hpresR.1]; exact h0
  have hL2le : shrinkGo (unlinkLevels sl.arena t sl.level) sl.level sl.level ≤
      sl.level := shrinkGo_le _ _ _
  have hL2pos : 1 ≤ shrinkGo (unlinkLevels sl.arena t sl.level) sl.level sl.level :=
    shrinkGo_pos _ _ _ hlv1
  -- per-level facts of the post-remove arena
  have hokb : ∀ l, l < shrinkGo (unlinkLevels sl.arena t sl.level) sl.level sl.level →
      LvlOk (unlinkLevels sl.arena t sl.level) l ((sl.chainAt l).erase t) := by
    intro l hl
    have h1 := hokR l (by omega)
    rw [if_pos (by omega)] at h1
    exact h1
  have hsubb : ∀ l, 0 < l →
      l < shrinkGo (unlinkLevels sl.arena t sl.level) sl.level sl.level →
      ∀ x ∈ (sl.chainAt l).erase t, x ∈ (sl.chainAt (l - 1)).erase t := by
    intro l hl0 hl x hx
    have hndl : (sl.chainAt l).Nodup :=
      (List.nodup_cons.mp (hok l (by omega)).2.1).2
    have hndl1 : (sl.chainAt (l - 1)).Nodup :=
      (List.nodup_cons.mp (hok (l - 1) (by omega)).2.1).2
    have hx' := (List.Nodup.mem_erase_iff hndl).mp hx
    exact (List.Nodup.mem_erase_iff hndl1).mpr
      ⟨hx'.1, hsub l hl0 (by omega) x hx'.2⟩
  -- the erased level-0 chain no longer carries `m`
  have hndc0 : (sl.chainAt 0).Nodup := (List.nodup_cons.mp hnd0).2
  have htpm : t ∉ pm := by
    rw [hdec0] at hndc0
    intro hp
    exact (List.nodup_append.mp hndc0).2.2 hp (List.mem_cons_self _ _)
  have hE : (sl.chainAt 0).erase t = pm ++ sm := by
    rw [hdec0]; exact erase_first sm htpm
  have hmems : memsOf sl.arena (sl.chainAt 0) =
      memsOf sl.arena pm ++ m :: memsOf sl.arena sm := by
    rw [hdec0, memsOf_append, memsOf_cons_some hmt]
  have hmid := List.nodup_middle.mp (hmems ▸ hmnd)
  have hmse : m ∉ memsOf sl.arena sm := by
    intro hmm
    exact (List.nodup_cons.mp hmid).1 (List.mem_append_right _ hmm)
  have hmemb2 : ∀ y, memberAt (unlinkLevels sl.arena t sl.level) y =
      memberAt sl.arena y := hpresR.2.1
  have hmabs : ∀ x ∈ (sl.chainAt 0).erase t,
      memberAt (unlinkLevels sl.arena t sl.level) x ≠ some m := by
    intro x hx
    rw [hE] at hx
    rw [hmemb2 x]
    rcases List.mem_append.mp hx with h1 | h2
    · exact hpm x h1
    · intro hc
      exact hmse (mem_memsOf h2 hc)
  have hmndE : (memsOf (unlinkLevels sl.arena t sl.level)
      ((sl.chainAt 0).erase t)).Nodup := by
    rw [memsOf_congr (fun x _ => hmemb2 x), hE, memsOf_append]
    exact (List.nodup_cons.mp hmid).2
  have hnl : 1 ≤ clampLvl rl :=
    Nat.le_min.mpr ⟨Nat.le_max_right rl 1, by decide⟩
  -- the final state of `insert`
  have hins : sl.insert cmp rl score m =
      { arena := spliceUpTo
          ((unlinkLevels sl.arena t sl.level) ++
            [⟨score, m, List.replicate (clampLvl rl) none⟩])
          (searchGo cmp (unlinkLevels sl.arena t sl.level) score m
            (shrinkGo (unlinkLevels sl.arena t sl.level) sl.level sl.level) 0 ++
            List.replicate (MAX_LEVEL -
              shrinkGo (unlinkLevels sl.arena t sl.level) sl.level sl.level) 0)
          (unlinkLevels sl.arena t sl.level).length (clampLvl rl),
        level := max (shrinkGo (unlinkLevels sl.arena t sl.level) sl.level sl.level)
          (clampLvl rl),
        length := (sl.length - 1) + 1 } := by
    rw [SkipList.insert, hrm]
  obtain ⟨hA1len, hA1nd, hA1score⟩ := insert_splice_facts cmp
    (unlinkLevels sl.arena t sl.level)
    (shrinkGo (unlinkLevels sl.arena t sl.level) sl.level sl.level)
    (clampLvl rl) score m (fun l => (sl.chainAt l).erase t) _
    h02 hL2pos hokb hsubb hmabs hmndE hnl rfl
  have hlpos : 1 ≤ sl.length := by
    rw [hlen, hdec0]
    simp
    omega
  refine ⟨?_, ?_, ?_⟩
  · rw [hins]
    show (sl.length - 1) + 1 = sl.length
    omega
  · rw [hins]
    show (memsOf _ (SkipList.chainAt _ 0)).Nodup
    unfold SkipList.chainAt
    simp only
    rw [show (spliceUpTo
          ((unlinkLevels sl.arena t sl.level) ++
            [(⟨score, m, List.replicate (clampLvl rl) none⟩ : SLNode σ)])
          (searchGo cmp (unlinkLevels sl.arena t sl.level) score m
            (shrinkGo (unlinkLevels sl.arena t sl.level) sl.level sl.level) 0 ++
            List.replicate (MAX_LEVEL -
              shrinkGo (unlinkLevels sl.arena t sl.level) sl.level sl.level) 0)
          (unlinkLevels sl.arena t sl.level).length (clampLvl rl)).length =
        (unlinkLevels sl.arena t sl.level).length + 1 from hA1len]
    exact hA1nd
  · rw [hins]
    show SkipList.getScore _ m = some score
    unfold SkipList.getScore
    simp only
    rw [show (spliceUpTo
          ((unlinkLevels sl.arena t sl.level) ++
            [(⟨score, m, List.replicate (clampLvl rl) none⟩ : SLNode σ)])
          (searchGo cmp (unlinkLevels sl.arena t sl.level) score m
            (shrinkGo (unlinkLevels sl.arena t sl.level) sl.level sl.level) 0 ++
            List.replicate (MAX_LEVEL -
              shrinkGo (unlinkLevels sl.arena t sl.level) sl.level sl.level) 0)
          (unlinkLevels sl.arena t sl.level).length (clampLvl rl)).length =
        (unlinkLevels sl.arena t sl.level).length + 1 from hA1len]
    exact hA1score

/-- A concrete well-formed one-element skip list over `f64` scores:
head sentinel (score `-∞`, 16 forward slots, the first pointing at the
node) and one node holding member `"a"` with score 1. -/
def c7sl : SkipList F64 :=
  { arena := [⟨.negInf, [], some 1 :: List.replicate 15 none⟩,
              ⟨.finite 1, [97], [none]⟩],
    level := 1, length := 1 }

theorem c7_insert_existing_member_witness :
    (c7sl.wf = true ∧ [97] ∈ memsOf c7sl.arena (c7sl.chainAt 0)) ∧
    ((c7sl.insert f64Cmp 3 (.finite 2) [97]).length = c7sl.length ∧
     (memsOf (c7sl.insert f64Cmp 3 (.finite 2) [97]).arena
       ((c7sl.insert f64Cmp 3 (.finite 2) [97]).chainAt 0)).Nodup ∧
     (c7sl.insert f64Cmp 3 (.finite 2) [97]).getScore [97] = some (.finite 2)) :=
  ⟨⟨by decide, by decide⟩,
   c7_insert_existing_member f64Cmp 3 c7sl (.finite 2) [97] (by decide) (by decide)⟩

/-! ## The database (`src/db.rs`)

`Db` holds `HashMap<String, Value>` and `HashMap<String, Instant>`; both
are modelled as association lists keyed by UTF-8 bytes, and `Instant` as
a `Nat` timestamp threaded through each command (`now`).  The skip list
inside `ZSet` values carries the `random_level()` sample as an explicit
input (`rl`). -/

/-- The `Value` enum of `src/value.rs`. -/
inductive Val where
  | str (s : List Nat)
  | list (xs : List (List Nat))
  | hash (h : List (Key × List Nat))
  | set (s : List (List Nat))
  | zset (z : SkipList F64)

def alGet {β : Type} : List (Key × β) → Key → Option β
  | [], _ => none
  | (k', v) :: rest, k => if k' = k then some v else alGet rest k

def alInsert {β : Type} : List (Key × β) → Key → β → List (Key × β)
  | [], k, v => [(k, v)]
  | (k', v') :: rest, k, v =>
    if k' = k then (k, v) :: rest else (k', v') :: alInsert rest k v

def alRemove {β : Type} : List (Key × β) → Key → List (Key × β)
  | [], _ => []
  | (k', v') :: rest, k =>
    if k' = k then alRemove rest k else (k', v') :: alRemove rest k

/-- Database state: the two maps guarded by the `RwLock`s. -/
structure DbState where
  inner : List (Key × Val)
  ttl : List (Key × Nat)

/-- `Db::is_expired`: a key is expired when its deadline is not after
`Instant::now()`. -/
def is_expired (st : DbState) (now : Nat) (k : Key) : Bool :=
  match alGet st.ttl k with
  | some exp_at => decide (exp_at ≤ now)
  | none => false

/-- `Db::purge_expired`: drop the key from both maps. -/
def purge_expired (st : DbState) (k : Key) : DbState :=
  { inner := alRemove st.inner k, ttl := alRemove st.ttl k }

/-- `Db::check_and_purge`. -/
def check_and_purge (st : DbState) (now : Nat) (k : Key) : DbState × Bool :=
  if is_expired st now k then (purge_expired st k, true) else (st, false)

/-- The `WRONGTYPE` error payload used throughout `db.rs`. -/
def WRONGTYPE : List Nat :=
  ascii "WRONGTYPE Operation against a key holding the wrong kind of value"

/-- `Db::get`. -/
def Db.get (st : DbState) (now : Nat) (k : Key) : Frame × DbState :=
  match check_and_purge st now k with
  | (st1, true) => (.null, st1)
  | (st1, false) =>
    match alGet st1.inner k with
    | some (.str v) => (.bulk v, st1)
    | some _ => (.error WRONGTYPE, st1)
    | none => (.null, st1)

/-- `Db::set`: purge if expired, then insert unconditionally; the TTL
map is not touched. -/
def Db.set (st : DbState) (now : Nat) (k : Key) (v : List Nat) : Frame × DbState :=
  let st1 := (check_and_purge st now k).1
  (.simple (ascii "OK"), { st1 with inner := alInsert st1.inner k (.str v) })

/-- `Db::getset`: computes `old` by matching the current value — but
then inserts the new string unconditionally, even when `old` is the
`WRONGTYPE` error. -/
def Db.getset (st : DbState) (now : Nat) (k : Key) (v : List Nat) : Frame × DbState :=
  let st1 := (check_and_purge st now k).1
  let old : Frame :=
    match alGet st1.inner k with
    | some (.str s) => .bulk s
    | some _ => .error WRONGTYPE
    | none => .null
  (old, { st1 with inner := alInsert st1.inner k (.str v) })

/-- `Db::expire`: only an existing key gets a deadline
`Instant::now() + secs`. -/
def Db.expire (st : DbState) (now : Nat) (k : Key) (secs : Nat) : Frame × DbState :=
  match alGet st.inner k with
  | none => (.integer 0, st)
  | some _ => (.integer 1, { st with ttl := alInsert st.ttl k (now + secs) })

/-- `Db::incrby`: strict `from_utf8` then `parse::<i64>` on the stored
string; absent key counts from 0; the addition is the source's unchecked
`curr + amt`. -/
def Db.incrby (st : DbState) (now : Nat) (k : Key) (amt : Int) : Frame × DbState :=
  let st1 := (check_and_purge st now k).1
  match alGet st1.inner k with
  | some (.str s) =>
    if utf8Valid s then
      match parseI64 s with
      | some v =>
        (.integer (v + amt),
         { st1 with inner := alInsert st1.inner k (.str (intToDec (v + amt))) })
      | none => (.error (ascii "ERR value is not an integer"), st1)
    else (.error (ascii "ERR value is not an integer"), st1)
  | some _ => (.error WRONGTYPE, st1)
  | none =>
    (.integer (0 + amt),
     { st1 with inner := alInsert st1.inner k (.str (intToDec (0 + amt))) })

/-- `Db::incr` (a verbatim copy of the `incrby` body with `amt = 1`, as
in the source). -/
def Db.incr (st : DbState) (now : Nat) (k : Key) : Frame × DbState :=
  let st1 := (check_and_purge st now k).1
  match alGet st1.inner k with
  | some (.str s) =>
    if utf8Valid s then
      match parseI64 s with
      | some v =>
        (.integer (v + 1),
         { st1 with inner := alInsert st1.inner k (.str (intToDec (v + 1))) })
      | none => (.error (ascii "ERR value is not an integer"), st1)
    else (.error (ascii "ERR value is not an integer"), st1)
  | some _ => (.error WRONGTYPE, st1)
  | none =>
    (.integer (0 + 1),
     { st1 with inner := alInsert st1.inner k (.str (intToDec (0 + 1))) })

def FrameList.ofList : List Frame → FrameList
  | [] => .nil
  | f :: fs => .cons f (FrameList.ofList fs)

/-- The element loop of `Db::mset` (plain inserts, no expiry handling). -/
def msetGo : List (Key × Val) → List (Key × List Nat) → List (Key × Val)
  | inner, [] => inner
  | inner, (k, v) :: rest => msetGo (alInsert inner k (.str v)) rest

/-- `Db::mset`. -/
def Db.mset (st : DbState) (kvs : List (Key × List Nat)) : Frame × DbState :=
  (.simple (ascii "OK"), { st with inner := msetGo st.inner kvs })

/-- The element loop of `Db::mget`: reads `inner` directly — there is no
`check_and_purge` and no TTL consultation in the source. -/
def mgetFrames (inner : List (Key × Val)) : List Key → List Frame
  | [] => []
  | k :: ks =>
    (match alGet inner k with
     | some (.str s) => Frame.bulk s
     | some _ => Frame.error WRONGTYPE
     | none => Frame.null) :: mgetFrames inner ks

/-- `Db::mget`. -/
def Db.mget (st : DbState) (ks : List Key) : Frame × DbState :=
  (.array (FrameList.ofList (mgetFrames st.inner ks)), st)

/-- `HashSet::insert` on the accumulating result of `Db::sunion`,
determinised to insertion order (the source's `HashSet` iteration order
is unspecified). -/
def insertAbsent (acc : List (List Nat)) (v : List Nat) : List (List Nat) :=
  if v ∈ acc then acc else acc ++ [v]

def unionAdd : List (List Nat) → List (List Nat) → List (List Nat)
  | acc, [] => acc
  | acc, v :: vs => unionAdd (insertAbsent acc v) vs

/-- The key loop of `Db::sunion`: expired keys are skipped
(`is_expired` — the map itself is not purged), and only `Set` values
contribute. -/
def sunionGo (st : DbState) (now : Nat) : List (List Nat) → List Key → List (List Nat)
  | acc, [] => acc
  | acc, k :: ks =>
    if is_expired st now k then sunionGo st now acc ks
    else
      match alGet st.inner k with
      | some (.set s) => sunionGo st now (unionAdd acc s) ks
      | _ => sunionGo st now acc ks

/-- `Db::sunion`. -/
def Db.sunion (st : DbState) (now : Nat) (ks : List Key) : Frame × DbState :=
  (.array (FrameList.ofList ((sunionGo st now [] ks).map Frame.bulk)), st)

/-- The base-selection loop of `Db::sinter`: the first non-expired key
holding a `Set` provides the base; expired keys are skipped here (and
only here). -/
def sinterBase (st : DbState) (now : Nat) : List Key → Option (List (List Nat))
  | [] => none
  | k :: ks =>
    if is_expired st now k then sinterBase st now ks
    else
      match alGet st.inner k with
      | some (.set s) => some s
      | _ => sinterBase st now ks

/-- The intersection loop of `Db::sinter`: it runs over ALL keys with no
`is_expired` check, so an expired key's `Set` still intersects the
accumulator (`HashSet::intersection`, determinised to the accumulator's
order). -/
def sinterLoop (inner : List (Key × Val)) :
    List (List Nat) → List Key → List (List Nat)
  | acc, [] => acc
  | acc, k :: ks =>
    match alGet inner k with
    | some (.set s) => sinterLoop inner (acc.filter (fun v => decide (v ∈ s))) ks
    | _ => sinterLoop inner acc ks

/-- `Db::sinter`. -/
def Db.sinter (st : DbState) (now : Nat) (ks : List Key) : Frame × DbState :=
  match ks with
  | [] => (.array .nil, st)
  | _ =>
    match sinterBase st now ks with
    | none => (.array .nil, st)
    | some base =>
      (.array (FrameList.ofList ((sinterLoop st.inner base ks).map Frame.bulk)), st)

/-- The subtraction loop of `Db::sdiff` over `keys[1..]`: every key's
`Set` members are removed from the result with no `is_expired` check. -/
def sdiffLoop (inner : List (Key × Val)) :
    List (List Nat) → List Key → List (List Nat)
  | acc, [] => acc
  | acc, k :: ks =>
    match alGet inner k with
    | some (.set s) => sdiffLoop inner (acc.filter (fun v => decide (v ∉ s))) ks
    | _ => sdiffLoop inner acc ks

/-- `Db::sdiff`: only the FIRST key is checked for expiration (an
expired first key yields an empty array); later keys subtract even when
expired. -/
def Db.sdiff (st : DbState) (now : Nat) (ks : List Key) : Frame × DbState :=
  match ks with
  | [] => (.array .nil, st)
  | k0 :: rest =>
    if is_expired st now k0 then (.array .nil, st)
    else
      match alGet st.inner k0 with
      | some (.set s) =>
        (.array (FrameList.ofList ((sdiffLoop st.inner s rest).map Frame.bulk)), st)
      | _ =>
        (.array (FrameList.ofList ((sdiffLoop st.inner [] rest).map Frame.bulk)), st)

/-- `Db::zadd`: purge, then `entry(key).or_insert_with(ZSet::new)`; a
`ZSet` entry takes the insert and answers `Integer(1)` whether or not
the member was present; any other value answers `WRONGTYPE`. -/
def Db.zadd (st : DbState) (now rl : Nat) (k : Key) (score : F64)
    (member : List Nat) : Frame × DbState :=
  let st1 := (check_and_purge st now k).1
  match alGet st1.inner k with
  | none =>
    let z := (SkipList.new F64.negInf).insert f64Cmp rl score member
    (.integer 1, { st1 with inner := alInsert st1.inner k (.zset z) })
  | some (.zset z) =>
    let z1 := z.insert f64Cmp rl score member
    (.integer 1, { st1 with inner := alInsert st1.inner k (.zset z1) })
  | some _ => (.error WRONGTYPE, st1)

theorem alGet_alInsert_self {β : Type} (l : List (Key × β)) (k : Key) (v : β) :
    alGet (alInsert l k v) k = some v := by
  induction l with
  | nil => simp [alInsert, alGet]
  | cons p rest ih =>
    obtain ⟨k', v'⟩ := p
    by_cases h : k' = k
    · simp [alInsert, if_pos h, alGet]
    · simp [alInsert, if_neg h, alGet, ih, h]

/-! ## Claims C1, C5, C6, C9, C10 -/

/-- A state whose only key (`"k"`) holds a List value. -/
def c1st : DbState := { inner := [([107], .list [[97]])], ttl := [] }

/-- C1: refuted on `GETSET` — applied to a key holding a List, it
replies `WRONGTYPE` but STILL overwrites the value with the new string:
the value map is changed on a type mismatch, contradicting "they emit
the error frame … and make no change". -/
theorem c1_getset_mutates_on_wrongtype :
    Db.getset c1st 0 [107] [120] =
      (.error WRONGTYPE, { inner := [([107], Val.str [120])], ttl := [] }) := rfl

/-- A state whose key `"k"` holds string `"a"` with a TTL deadline of 5. -/
def c5st : DbState := { inner := [([107], .str [97])], ttl := [([107], 5)] }

/-- C5 counterexample: at time 10 the key is expired — single-key `GET`
purges it and answers Null — yet `MGET` still answers the stale Bulk,
because `Db::mget` never consults the TTL map. -/
theorem c5_mget_returns_stale :
    is_expired c5st 10 [107] = true ∧
    Db.mget c5st [[107]] = (.array (.cons (.bulk [97]) .nil), c5st) ∧
    Db.get c5st 10 [107] = (.null, { inner := [], ttl := [] }) := ⟨rfl, rfl, rfl⟩

/-- C5 amended: per-key lazy expiration is inconsistent across the
multi-key commands.  `SUNION` skips every expired key; `SINTER` consults
`is_expired` only while choosing its base set — the intersection pass
has no expiration check, so an expired key's stale `Set` still shrinks
the result; `SDIFF` checks only the first key (an expired first key
empties the result) while expired later keys still subtract; and `MGET`
applies no per-key expiration at all, returning the stale Bulk. -/
theorem c5_multikey_lazy_expiration (st : DbState) (now : Nat) (k : Key)
    (s : List Nat) (ks ks' : List Key)
    (st2 : DbState) (now2 : Nat) (k2 : Key) (s2 : List (List Nat))
    (ks2 : List Key) (acc : List (List Nat))
    (hval : alGet st.inner k = some (.str s))
    (hexp : is_expired st now k = true)
    (hset2 : alGet st2.inner k2 = some (.set s2))
    (hexp2 : is_expired st2 now2 k2 = true) :
    (Db.mget st (k :: ks)).1 =
      .array (.cons (.bulk s) (FrameList.ofList (mgetFrames st.inner ks))) ∧
    Db.sunion st now (k :: ks') = Db.sunion st now ks' ∧
    sinterBase st2 now2 (k2 :: ks2) = sinterBase st2 now2 ks2 ∧
    sinterLoop st2.inner acc (k2 :: ks2) =
      sinterLoop st2.inner (acc.filter (fun v => decide (v ∈ s2))) ks2 ∧
    Db.sdiff st2 now2 (k2 :: ks2) = (.array .nil, st2) ∧
    sdiffLoop st2.inner acc (k2 :: ks2) =
      sdiffLoop st2.inner (acc.filter (fun v => decide (v ∉ s2))) ks2 := by
  refine ⟨?_, ?_, ?_, ?_, ?_, ?_⟩
  · unfold Db.mget
    simp only
    rw [mgetFrames, hval]
    rfl
  · unfold Db.sunion
    rw [sunionGo, if_pos hexp]
  · rw [sinterBase, if_pos hexp2]
  · rw [sinterLoop]
    simp only [hset2]
  · unfold Db.sdiff
    simp only
    rw [if_pos hexp2]
  · rw [sdiffLoop]
    simp only [hset2]

/-- A state whose key `"j"` holds the Set `{"a", "b"}` with a TTL
deadline of 5. -/
def c5st2 : DbState :=
  { inner := [([106], .set [[97], [98]])], ttl := [([106], 5)] }

theorem c5_multikey_lazy_expiration_witness :
    (alGet c5st.inner [107] = some (.str [97]) ∧
     is_expired c5st 10 [107] = true ∧
     alGet c5st2.inner [106] = some (.set [[97], [98]]) ∧
     is_expired c5st2 10 [106] = true) ∧
    ((Db.mget c5st [[107]]).1 =
      .array (.cons (.bulk [97]) (FrameList.ofList (mgetFrames c5st.inner []))) ∧
     Db.sunion c5st 10 [[107]] = Db.sunion c5st 10 [] ∧
     sinterBase c5st2 10 [[106]] = sinterBase c5st2 10 [] ∧
     sinterLoop c5st2.inner [[97], [99]] [[106]] =
       sinterLoop c5st2.inner
         (([[97], [99]] : List (List Nat)).filter (fun v => decide (v ∈ [[97], [98]]))) [] ∧
     Db.sdiff c5st2 10 [[106]] = (.array .nil, c5st2) ∧
     sdiffLoop c5st2.inner [[97], [99]] [[106]] =
       sdiffLoop c5st2.inner
         (([[97], [99]] : List (List Nat)).filter (fun v => decide (v ∉ [[97], [98]]))) []) :=
  ⟨⟨rfl, rfl, rfl, rfl⟩,
   c5_multikey_lazy_expiration c5st 10 [107] [97] [] []
     c5st2 10 [106] [[97], [98]] [] [[97], [99]] rfl rfl rfl rfl⟩

/-- C6: `ZADD` answers `Integer(1)` whenever the (lazily purged) key is
absent or holds a sorted set — both on first insert of the member and on
a score update of an existing member — because the source returns 1
unconditionally from the `ZSet` arm. -/
theorem c6_zadd_returns_one (st : DbState) (now rl : Nat) (k : Key)
    (score : F64) (member : List Nat)
    (h : ∀ v, alGet (check_and_purge st now k).1.inner k = some v →
      ∃ z, v = Val.zset z) :
    (Db.zadd st now rl k score member).1 = .integer 1 := by
  unfold Db.zadd
  cases hv : alGet (check_and_purge st now k).1.inner k with
  | none => simp only [hv]
  | some v =>
    obtain ⟨z, rfl⟩ := h v hv
    simp only [hv]

theorem c6_zadd_returns_one_witness :
    (Db.zadd { inner := [([107], Val.zset (SkipList.new F64.negInf))], ttl := [] }
      0 1 [107] (.finite 3) [97]).1 = .integer 1 :=
  c6_zadd_returns_one _ 0 1 [107] (.finite 3) [97]
    (by
      intro v hv
      simp [check_and_purge, is_expired, alGet] at hv
      exact ⟨SkipList.new F64.negInf, hv.symm⟩)

/-- C9: `SET` does not clear an existing TTL.  After `EXPIRE k secs` at
time `now0` (which answers 1 for an existing key), a `SET k v` at any
later time `now1` before the deadline leaves the TTL map — and in
particular the key's deadline `now0 + secs` — untouched. -/
theorem c9_set_preserves_ttl (st : DbState) (now0 now1 secs : Nat) (k : Key)
    (v : List Nat) (w : Val)
    (hk : alGet st.inner k = some w)
    (hfresh : now1 < now0 + secs) :
    (Db.expire st now0 k secs).1 = .integer 1 ∧
    (Db.set (Db.expire st now0 k secs).2 now1 k v).2.ttl =
      (Db.expire st now0 k secs).2.ttl ∧
    alGet (Db.set (Db.expire st now0 k secs).2 now1 k v).2.ttl k =
      some (now0 + secs) := by
  have hexp : Db.expire st now0 k secs =
      (.integer 1, { st with ttl := alInsert st.ttl k (now0 + secs) }) := by
    unfold Db.expire
    rw [hk]
  have hnexp : is_expired { st with ttl := alInsert st.ttl k (now0 + secs) }
      now1 k = false := by
    unfold is_expired
    simp only
    rw [alGet_alInsert_self]
    simp
    omega
  have hcp : check_and_purge { st with ttl := alInsert st.ttl k (now0 + secs) }
      now1 k = ({ st with ttl := alInsert st.ttl k (now0 + secs) }, false) := by
    unfold check_and_purge
    rw [hnexp]
    simp
  rw [hexp]
  refine ⟨rfl, ?_, ?_⟩
  · show (Db.set _ now1 k v).2.ttl = _
    unfold Db.set
    simp only [hcp]
  · show alGet (Db.set _ now1 k v).2.ttl k = _
    unfold Db.set
    simp only [hcp]
    exact alGet_alInsert_self st.ttl k (now0 + secs)

theorem c9_set_preserves_ttl_witness :
    (alGet ({ inner := [([107], Val.str [97])], ttl := [] } : DbState).inner [107] =
        some (Val.str [97]) ∧ (3 : Nat) < 0 + 7) ∧
    ((Db.expire { inner := [([107], Val.str [97])], ttl := [] } 0 [107] 7).1 =
        .integer 1 ∧
     (Db.set (Db.expire { inner := [([107], Val.str [97])], ttl := [] }
        0 [107] 7).2 3 [107] [98]).2.ttl =
       (Db.expire { inner := [([107], Val.str [97])], ttl := [] } 0 [107] 7).2.ttl ∧
     alGet (Db.set (Db.expire { inner := [([107], Val.str [97])], ttl := [] }
        0 [107] 7).2 3 [107] [98]).2.ttl [107] = some (0 + 7)) :=
  ⟨⟨rfl, by decide⟩,
   c9_set_preserves_ttl { inner := [([107], Val.str [97])], ttl := [] }
     0 3 7 [107] [98] (Val.str [97]) rfl (by decide)⟩

/-- C10: for a key holding the ASCII decimal representation of `v`
(64-bit range enforced by the parse), and under the claim's precondition
that `v + n` does not overflow `i64` (the source adds unchecked),
`INCRBY n` answers `Integer(v + n)` and stores its decimal
representation; `INCR` is exactly `INCRBY 1`. -/
theorem c10_incrby_decimal (st : DbState) (now : Nat) (k : Key) (s : List Nat)
    (v n : Int)
    (hnexp : is_expired st now k = false)
    (hval : alGet st.inner k = some (.str s))
    (hutf : utf8Valid s = true)
    (hparse : parseI64 s = some v)
    (hrange : -(2 ^ 63) ≤ v + n ∧ v + n < 2 ^ 63) :
    Db.incrby st now k n =
      (.integer (v + n),
       { st with inner := alInsert st.inner k (.str (intToDec (v + n))) }) ∧
    Db.incr st now k = Db.incrby st now k 1 := by
  have hcp : check_and_purge st now k = (st, false) := by
    unfold check_and_purge
    rw [hnexp]
    simp
  constructor
  · unfold Db.incrby
    simp only [hcp, hval, hutf, hparse, if_true]
  · rfl

theorem c10_incrby_decimal_witness :
    (is_expired { inner := [([107], Val.str [52, 49])], ttl := [] } 0 [107] = false ∧
     alGet ({ inner := [([107], Val.str [52, 49])], ttl := [] } : DbState).inner
       [107] = some (Val.str [52, 49]) ∧
     utf8Valid [52, 49] = true ∧ parseI64 [52, 49] = some 41 ∧
     (-(2 ^ 63) ≤ (41 : Int) + 1 ∧ (41 : Int) + 1 < 2 ^ 63)) ∧
    (Db.incrby { inner := [([107], Val.str [52, 49])], ttl := [] } 0 [107] 1 =
      (.integer 42,
       { inner := alInsert [([107], Val.str [52, 49])] [107]
           (.str (intToDec 42)), ttl := [] }) ∧
     Db.incr { inner := [([107], Val.str [52, 49])], ttl := [] } 0 [107] =
       Db.incrby { inner := [([107], Val.str [52, 49])], ttl := [] } 0 [107] 1) :=
  ⟨⟨rfl, rfl, rfl, rfl, by decide⟩,
   c10_incrby_decimal { inner := [([107], Val.str [52, 49])], ttl := [] }
     0 [107] [52, 49] 41 1 rfl rfl rfl rfl (by decide)⟩

end RustRedis
